import Mathlib

/-!
# Verification of the BuildStream variable-resolution engine

A shallow embedding of `src/buildstream/_variables.pyx`: the template
parser (`ValueClass._parse_string` driven by the regular expression
`\%\{([a-zA-Z][a-zA-Z0-9_-]*)\}`), the per-variable resolution state
(`Value`), the explicit-stack resolution driver (`Variables._resolve`
with its `ResolutionStep` frames and `check_circular`), and the public
operations of the `Variables` class (`__getitem__`, `get`, `subst`,
`expand`, `check`, `__iter__`, `__init__`).

Python dictionaries become association lists, in-place mutation of the
`Value._resolved` memo becomes explicit state passing of the value
table, raised `LoadError`s become explicit error results, and the
unbounded `while` loop of `_resolve` is driven by a fuel parameter that
the public entry points instantiate with a provably sufficient bound.
Uncatchable faults of the Python code (a `KeyError`/`TypeError` escaping
from `Value.resolve` when its resolution precondition is violated) are
modelled by a distinct `fault` outcome.
-/

set_option maxHeartbeats 1000000

namespace BuildStream

/-! ## The template parser (`ValueClass`) -/

/-- A part of a parsed template: literal text or a variable reference
(`ValuePart` in the source, with its `is_variable` flag). -/
inductive ValuePart where
  | literal (text : String)
  | var (name : String)
deriving DecidableEq, Repr

/-- First character class of a variable name: `[a-zA-Z]`. -/
def isAlphaCh (c : Char) : Bool :=
  ('a' ≤ c && c ≤ 'z') || ('A' ≤ c && c ≤ 'Z')

/-- Subsequent character class of a variable name: `[a-zA-Z0-9_-]`. -/
def isNameCh (c : Char) : Bool :=
  isAlphaCh c || ('0' ≤ c && c ≤ '9') || c == '_' || c == '-'

/-- Attempt to match the expansion pattern `\%\{([a-zA-Z][a-zA-Z0-9_-]*)\}`
at the head of the input, returning the captured name and the rest of the
input after the closing brace.  The character class of the name excludes
the closing brace, so the greedy `*` of the regular expression is exactly
`takeWhile`. -/
def matchExpansion : List Char → Option (String × List Char)
  | '%' :: '{' :: c :: rest =>
    if isAlphaCh c then
      match rest.dropWhile isNameCh with
      | '}' :: tail => some (String.mk (c :: rest.takeWhile isNameCh), tail)
      | _ => none
    else none
  | _ => none

theorem matchExpansion_some_shape {l : List Char} {nm : String} {tail : List Char}
    (h : matchExpansion l = some (nm, tail)) :
    ∃ c run, l = '%' :: '{' :: c :: (run ++ '}' :: tail) ∧
      isAlphaCh c = true ∧ (∀ c' ∈ run, isNameCh c' = true) ∧
      nm = String.mk (c :: run) := by
  unfold matchExpansion at h
  split at h
  next c rest =>
    split at h
    next ha =>
      split at h
      next tl heq =>
        simp only [Option.some.injEq, Prod.mk.injEq] at h
        refine ⟨c, rest.takeWhile isNameCh, ?_, ha, ?_, h.1.symm⟩
        · have hsplit := List.takeWhile_append_dropWhile (p := isNameCh) (l := rest)
          rw [← h.2, ← heq, hsplit]
        · intro c' hc'
          exact List.mem_takeWhile_imp hc'
      next => exact absurd h (by simp)
    next ha => exact absurd h (by simp)
  next => exact absurd h (by simp)

theorem matchExpansion_length_lt {l : List Char} {nm : String} {tail : List Char}
    (h : matchExpansion l = some (nm, tail)) : tail.length < l.length := by
  obtain ⟨c, run, hl, -, -, -⟩ := matchExpansion_some_shape h
  subst hl; simp; omega

/-- The split performed by `VALUE_CLASS_PARSE_EXPANSION.split` in
`ValueClass._parse_string`, already collected into the part list: the
input is scanned left to right; each leftmost non-overlapping match of
`%{name}` becomes a variable part, the (non-empty) unmatched stretches
become literal parts, and empty literal segments are dropped.  `acc`
holds the pending literal characters in reverse. -/
def parseLoop (acc : List Char) (input : List Char) : List ValuePart :=
  match h : matchExpansion input with
  | some (nm, tail) =>
    (if acc.isEmpty then [] else [ValuePart.literal (String.mk acc.reverse)]) ++
      ValuePart.var nm :: parseLoop [] tail
  | none =>
    match input with
    | [] => if acc.isEmpty then [] else [ValuePart.literal (String.mk acc.reverse)]
    | c :: rest => parseLoop (c :: acc) rest
termination_by input.length
decreasing_by
  · exact matchExpansion_length_lt h
  · simp

/-- Fuel-driven twin of `parseLoop`, structurally recursive so that the
parse of a concrete template reduces inside the kernel.  `parseLoop`
consumes at least one input character per step, so any fuel of at least
the input length makes the two agree (`parseLoopF_eq` below). -/
def parseLoopF : Nat → List Char → List Char → List ValuePart
  | 0, acc, _ =>
    if acc.isEmpty then [] else [ValuePart.literal (String.mk acc.reverse)]
  | fuel + 1, acc, input =>
    match matchExpansion input with
    | some (nm, tail) =>
      (if acc.isEmpty then [] else [ValuePart.literal (String.mk acc.reverse)]) ++
        ValuePart.var nm :: parseLoopF fuel [] tail
    | none =>
      match input with
      | [] => if acc.isEmpty then [] else [ValuePart.literal (String.mk acc.reverse)]
      | c :: rest => parseLoopF fuel (c :: acc) rest

/-- `ValueClass._parse_string`: parse a raw template string into its
ordered list of literal and variable parts. -/
def parseString (s : String) : List ValuePart :=
  parseLoopF s.data.length [] s.data

/-- The set of distinct variable names referenced by a template
(`ValueClass.variable_names`), as a list in first-occurrence order. -/
def varNamesList (s : String) : List String :=
  ((parseString s).filterMap fun p =>
    match p with
    | ValuePart.var x => some x
    | ValuePart.literal _ => none).dedup

/-! ## Values and the value table -/

/-- `Value`: one variable's binding.  The parsed `ValueClass` is
recovered functionally from the raw template text (the process-wide
`VALUE_CLASS_TABLE` interning cache is a pure performance optimisation:
two equal raw strings always parse to the same part list here), and
`resolved` is the write-once memo `Value._resolved`. -/
structure Value where
  template : String
  resolved : Option String
deriving DecidableEq, Repr

/-- `Value.dependencies()`: the referenced names while unresolved,
and the empty set once resolved. -/
def Value.dependencies (v : Value) : List String :=
  match v.resolved with
  | some _ => []
  | none => varNamesList v.template

/-- The `Variables._values` table: an ordered name-to-`Value` mapping. -/
abbrev Variables := List (String × Value)

/-- Dictionary lookup `values[name]`. -/
def lookupV : Variables → String → Option Value
  | [], _ => none
  | p :: rest, k => if p.1 = k then some p.2 else lookupV rest k

/-- Write-back of a mutated `Value` object into the table (in Python the
mutation is in place; here the entry for the key is replaced). -/
def setV : Variables → String → Value → Variables
  | [], _, _ => []
  | p :: rest, k, v => if p.1 = k then (k, v) :: setV rest k v else p :: setV rest k v

/-- The concatenation loop of `Value.resolve`: walk the part list,
emitting literal text and the referenced `Value._resolved` memo for
variable parts.  A missing key (`KeyError`) or an unresolved referenced
value (`None` handed to `str.join`, a `TypeError`) is a fault,
modelled as `none`. -/
def resolveParts (values : Variables) : List ValuePart → Option String
  | [] => some ""
  | ValuePart.literal t :: rest =>
    (resolveParts values rest).map fun s => t ++ s
  | ValuePart.var x :: rest =>
    match lookupV values x with
    | none => none
    | some v =>
      match v.resolved with
      | none => none
      | some r => (resolveParts values rest).map fun s => r ++ s

/-- `Value.resolve`: return the memo if set, otherwise concatenate the
parts (expecting every referenced value to be resolved already) and set
the memo.  Returns the resolved string together with the updated value. -/
def Value.resolve (v : Value) (values : Variables) : Option (String × Value) :=
  match v.resolved with
  | some r => some (r, v)
  | none =>
    match resolveParts values (parseString v.template) with
    | some r => some (r, { v with resolved := some r })
    | none => none

/-! ## The resolution driver (`Variables._resolve`) -/

/-- The two `LoadError` kinds raised by the engine:
`LoadErrorReason.UNRESOLVED_VARIABLE` and
`LoadErrorReason.CIRCULAR_REFERENCE_VARIABLE`.  The circular error
carries `self.referee` of the offending `ResolutionStep` (an `Option`
since the top-level step has no referee). -/
inductive VError where
  | undefinedVar (name : String)
  | circularRef (name : Option String)
deriving DecidableEq, Repr

/-- A `ResolutionStep`: the referring variable (`referee`, `none` for
the top-level request), the set of names still to resolve at this level
(`varnames`), and the chain of ancestor referees (the `parent` links,
nearest first), used by `check_circular`.  The `prev` link is the stack
list itself. -/
structure Step where
  referee : Option String
  varnames : List String
  chain : List (Option String)
deriving DecidableEq, Repr

/-- Outcome of processing the name set of one step. -/
inductive PNOut where
  | ok (stack : List Step) (deps : List String) (firstIter : Bool)
  | early (s : String)
  | err (e : VError)
deriving DecidableEq, Repr

/-- The `for iter_name_object in this_step.varnames` body of
`Variables._resolve`: look each name up (raising the undefined-variable
error on a missing key), return early on the very first name examined
overall if it is already resolved, append unresolved values to the
dependency queue and push a new step for their own dependencies.
`childChain` is `this_step.referee :: this_step.chain`, the ancestor
chain any pushed child records for cycle detection. -/
def processNames (values : Variables) (childChain : List (Option String)) :
    List String → List Step → List String → Bool → PNOut
  | [], stack, deps, fi => .ok stack deps fi
  | x :: rest, stack, deps, fi =>
    match lookupV values x with
    | none => .err (.undefinedVar x)
    | some v =>
      match v.resolved with
      | some r =>
        if fi then .early r
        else processNames values childChain rest stack deps false
      | none =>
        let ds := v.dependencies
        processNames values childChain rest
          (if ds.isEmpty then stack
           else { referee := some x, varnames := ds, chain := childChain } :: stack)
          (deps ++ [x]) false

/-- Outcome of the step-processing loop of `Variables._resolve`. -/
inductive LoopOut where
  | complete (deps : List String)
  | early (s : String)
  | err (e : VError)
  | outOfFuel
deriving DecidableEq, Repr

/-- The `while step:` loop of `Variables._resolve`: pop the most recent
step, run `check_circular` (does any ancestor share this step's
referee?), then process its names.  The loop is driven by fuel; the
public entry points supply a bound proved sufficient below. -/
def resolveLoop (values : Variables) : Nat → List Step → List String → Bool → LoopOut
  | 0, _, _, _ => .outOfFuel
  | _ + 1, [], deps, _ => .complete deps
  | fuel + 1, st :: stack, deps, fi =>
    if st.referee ∈ st.chain then .err (.circularRef st.referee)
    else
      match processNames values (st.referee :: st.chain) st.varnames stack deps fi with
      | .early s => .early s
      | .err e => .err e
      | .ok stack' deps' fi' => resolveLoop values fuel stack' deps' fi'

/-- The finalisation loop of `Variables._resolve` (`while deps: ...
deps.pop() ... resolve`): the argument list is the dependency queue
reversed, so popping from the end of the queue is walking this list
front to back.  Each resolved value is written back; the last resolved
string is returned. -/
def finalizeAux (values : Variables) : List String → Option String → Option (String × Variables)
  | [], last =>
    match last with
    | some s => some (s, values)
    | none => none
  | m :: rest, _ =>
    match lookupV values m with
    | none => none
    | some v =>
      match v.resolve values with
      | none => none
      | some (s, v') => finalizeAux (setV values m v') rest (some s)

/-- Result of `Variables._resolve`: the resolved string with the updated
value table, a raised `LoadError`, a fault (an escaped `KeyError` /
`TypeError`), or fuel exhaustion (never reached from the public
operations, as proved below). -/
inductive RResult where
  | ok (s : String) (values : Variables)
  | err (e : VError) (values : Variables)
  | fault
  | outOfFuel
deriving DecidableEq, Repr

/-- `Variables._resolve` at a given fuel: push the initial step for the
requested name, run the collection loop, then finalise the dependency
queue. -/
def resolveNameFuel (values : Variables) (fuel : Nat) (name : String) : RResult :=
  match resolveLoop values fuel [{ referee := none, varnames := [name], chain := [] }] [] true with
  | .early s => .ok s values
  | .err e => .err e values
  | .outOfFuel => .outOfFuel
  | .complete deps =>
    match finalizeAux values deps.reverse none with
    | some (s, values') => .ok s values'
    | none => .fault

/-- An upper bound on the number of names any single step can carry:
1 (for the initial step) joined with the dependency-list length of every
stored value. -/
def maxDeps (values : Variables) : Nat :=
  values.foldr (fun p m => max (varNamesList p.2.template).length m) 1

/-- Fuel sufficient for the step loop to run to completion on this
table, proved below (`resolveLoop_total`). -/
def sufficientFuel (values : Variables) : Nat :=
  (maxDeps values + 1) ^ (values.length + 2) + 1

/-- `Variables.__getitem__` / the resolution driver entry point. -/
def Variables.lookup (values : Variables) (name : String) : RResult :=
  resolveNameFuel values (sufficientFuel values) name

/-! ## The remaining public operations -/

/-- Result of `Variables.get`. -/
inductive GetOut where
  | val (s : Option String) (values : Variables)
  | fault
  | outOfFuel
deriving DecidableEq, Repr

/-- `Variables.get`: try `self._resolve(name, None)` and catch
`LoadError`.  The `except` block tests
`e.reason == LoadErrorReason.UNRESOLVED_VARIABLE` and returns `None` for
it, but contains no `raise`: when the reason is the circular-reference
one, control falls off the end of the function and `None` is returned as
well.  Both error branches therefore produce `none` here. -/
def Variables.get (values : Variables) (name : String) : GetOut :=
  match Variables.lookup values name with
  | .ok s values' => .val (some s) values'
  | .err (VError.undefinedVar _) values' => .val none values'
  | .err (VError.circularRef _) values' => .val none values'
  | .fault => .fault
  | .outOfFuel => .outOfFuel

/-- `Variables.__contains__`. -/
def Variables.containsName (values : Variables) (name : String) : Bool :=
  (lookupV values name).isSome

/-- `Variables.subst`: build an ad hoc `Value` from the given scalar
text, resolve each of its dependencies through the driver (threading the
table state), then concatenate its parts against the final table. -/
def Variables.subst (values : Variables) (text : String) : RResult :=
  substDeps values (varNamesList text).dedup text
where
  /-- The `for dep_name_object in value.dependencies()` loop. -/
  substDeps (values : Variables) : List String → String → RResult
    | [], text =>
      match resolveParts values (parseString text) with
      | some s => .ok s values
      | none => .fault
    | x :: rest, text =>
      match Variables.lookup values x with
      | .ok _ values' => substDeps values' rest text
      | .err e values' => .err e values'
      | .fault => .fault
      | .outOfFuel => .outOfFuel

/-- Outcome of `Variables.check` (and of any bulk resolution of a list
of names): success returns the updated table. -/
inductive BulkOut where
  | ok (values : Variables)
  | err (e : VError) (values : Variables)
  | fault
  | outOfFuel
deriving DecidableEq, Repr

/-- Resolve a list of names in order, threading the table. -/
def resolveNameList (values : Variables) : List String → BulkOut
  | [] => .ok values
  | x :: rest =>
    match Variables.lookup values x with
    | .ok _ values' => resolveNameList values' rest
    | .err e values' => .err e values'
    | .fault => .fault
    | .outOfFuel => .outOfFuel

/-- `Variables.check`: resolve every stored variable. -/
def Variables.check (values : Variables) : BulkOut :=
  resolveNameList values (values.map Prod.fst)

/-- Outcome of iterating the store (`Variables.__iter__`). -/
inductive IterOut where
  | ok (pairs : List (String × String)) (values : Variables)
  | err (e : VError) (values : Variables)
  | fault
  | outOfFuel
deriving DecidableEq, Repr

/-- The `ValueIterator` run to completion: every stored name together
with its fully resolved value, in table order. -/
def iterateNames (values : Variables) : List String → IterOut
  | [] => .ok [] values
  | x :: rest =>
    match Variables.lookup values x with
    | .ok s values' =>
      match iterateNames values' rest with
      | .ok pairs values'' => .ok ((x, s) :: pairs) values''
      | .err e values'' => .err e values''
      | .fault => .fault
      | .outOfFuel => .outOfFuel
    | .err e values' => .err e values'
    | .fault => .fault
    | .outOfFuel => .outOfFuel

/-- `Variables.__iter__`, run eagerly over all keys. -/
def Variables.iterateAll (values : Variables) : IterOut :=
  iterateNames values (values.map Prod.fst)

/-- `Variables.__init__` with `_init_values`: one `Value` per input
entry, memo unset.  `node.get_bool('notparallel', False)` lives in the
external node model (`node.pyx`, not part of this sample); its result is
passed in as the `notparallel` flag, modelled from the spec: a
boolean-truthy `notparallel` entry forces `node['max-jobs'] = str(1)`
before any value is built. -/
def Variables.init (input : List (String × String)) (notparallel : Bool) : Variables :=
  let node := if notparallel then setKeyString input "max-jobs" "1" else input
  node.map fun p => (p.1, { template := p.2, resolved := none })
where
  /-- `MappingNode.__setitem__`: replace the value of an existing key in
  place, or append a new entry. -/
  setKeyString (l : List (String × String)) (k v : String) : List (String × String) :=
    if l.any fun p => p.1 = k then
      l.map fun p => if p.1 = k then (k, v) else p
    else l ++ [(k, v)]

/-! ## The document tree and `Variables.expand` -/

/-- The document-node model consumed by `Variables._expand`, modelled
from the spec's document tree interface (`node.pyx` is external to this
sample): scalar text leaves, ordered sequences, and mappings with
ordered string keys. -/
inductive Node where
  | scalar (text : String)
  | sequence (children : List Node)
  | mapping (entries : List (String × Node))

/-- Outcome of `Variables.expand` on a node. -/
inductive ExpandOut where
  | ok (node : Node) (values : Variables)
  | err (e : VError) (values : Variables)
  | fault
  | outOfFuel

/-- Outcome of expanding a sequence's children. -/
inductive ExpandListOut where
  | ok (children : List Node) (values : Variables)
  | err (e : VError) (values : Variables)
  | fault
  | outOfFuel

/-- Outcome of expanding a mapping's entries. -/
inductive ExpandMapOut where
  | ok (entries : List (String × Node)) (values : Variables)
  | err (e : VError) (values : Variables)
  | fault
  | outOfFuel

mutual

/-- `Variables._expand`: substitute scalar leaves in place, recurse into
sequence children and mapping values. -/
def Variables.expand (values : Variables) : Node → ExpandOut
  | .scalar text =>
    match Variables.subst values text with
    | .ok s values' => .ok (.scalar s) values'
    | .err e values' => .err e values'
    | .fault => .fault
    | .outOfFuel => .outOfFuel
  | .sequence children =>
    match Variables.expandSeq values children with
    | .ok children' values' => .ok (.sequence children') values'
    | .err e values' => .err e values'
    | .fault => .fault
    | .outOfFuel => .outOfFuel
  | .mapping entries =>
    match Variables.expandMap values entries with
    | .ok entries' values' => .ok (.mapping entries') values'
    | .err e values' => .err e values'
    | .fault => .fault
    | .outOfFuel => .outOfFuel

/-- The `for entry in (<SequenceNode> node).value` loop of `_expand`. -/
def Variables.expandSeq (values : Variables) : List Node → ExpandListOut
  | [] => .ok [] values
  | n :: rest =>
    match Variables.expand values n with
    | .ok n' values' =>
      match Variables.expandSeq values' rest with
      | .ok rest' values'' => .ok (n' :: rest') values''
      | .err e values'' => .err e values''
      | .fault => .fault
      | .outOfFuel => .outOfFuel
    | .err e values' => .err e values'
    | .fault => .fault
    | .outOfFuel => .outOfFuel

/-- The `for entry in (<MappingNode> node).value.values()` loop of
`_expand`: only the values are substituted, the keys are untouched. -/
def Variables.expandMap (values : Variables) : List (String × Node) → ExpandMapOut
  | [] => .ok [] values
  | p :: rest =>
    match Variables.expand values p.2 with
    | .ok n' values' =>
      match Variables.expandMap values' rest with
      | .ok rest' values'' => .ok ((p.1, n') :: rest') values''
      | .err e values'' => .err e values''
      | .fault => .fault
      | .outOfFuel => .outOfFuel
    | .err e values' => .err e values'
    | .fault => .fault
    | .outOfFuel => .outOfFuel

end

/-! ## Characterisation of the parser -/

theorem parseLoop_eq_some {input : List Char} {nm : String} {tail : List Char}
    (acc : List Char) (h : matchExpansion input = some (nm, tail)) :
    parseLoop acc input =
      (if acc.isEmpty then [] else [ValuePart.literal (String.mk acc.reverse)]) ++
        ValuePart.var nm :: parseLoop [] tail := by
  rw [parseLoop]
  split
  next nm' tail' hm' => rw [h] at hm'; cases hm'; rfl
  next hm' => rw [h] at hm'; cases hm'

theorem parseLoop_eq_nil (acc : List Char) :
    parseLoop acc [] =
      if acc.isEmpty then [] else [ValuePart.literal (String.mk acc.reverse)] := by
  rw [parseLoop]
  split
  next nm' tail' hm' => cases hm'
  next => rfl

theorem parseLoop_eq_cons {c : Char} {rest : List Char}
    (acc : List Char) (h : matchExpansion (c :: rest) = none) :
    parseLoop acc (c :: rest) = parseLoop (c :: acc) rest := by
  rw [parseLoop]
  split
  next nm' tail' hm' => rw [h] at hm'; cases hm'
  next => rfl

theorem parseLoopF_eq :
    ∀ (fuel : Nat) (acc input : List Char), input.length ≤ fuel →
    parseLoopF fuel acc input = parseLoop acc input := by
  intro fuel
  induction fuel with
  | zero =>
    intro acc input h
    have hnil : input = [] := by
      cases input with
      | nil => rfl
      | cons c r => simp at h
    subst hnil
    rw [parseLoop_eq_nil acc]
    rfl
  | succ f ih =>
    intro acc input h
    rcases hm : matchExpansion input with _ | ⟨nm, tail⟩
    · match input with
      | [] =>
        rw [parseLoop_eq_nil acc]
        simp [parseLoopF, hm]
      | c :: rest =>
        rw [parseLoop_eq_cons acc hm]
        simp only [parseLoopF, hm]
        exact ih (c :: acc) rest (by simp at h; omega)
    · rw [parseLoop_eq_some acc hm]
      simp only [parseLoopF, hm]
      rw [ih [] tail (by have := matchExpansion_length_lt hm; omega)]

theorem parseString_eq_loop (s : String) : parseString s = parseLoop [] s.data :=
  parseLoopF_eq s.data.length [] s.data (le_refl _)

/-- A well-formed variable name per `VALUE_CLASS_PARSE_EXPANSION`:
`[a-zA-Z][a-zA-Z0-9_-]*`. -/
def goodName (x : String) : Prop :=
  match x.data with
  | [] => False
  | c :: rest => isAlphaCh c = true ∧ ∀ c' ∈ rest, isNameCh c' = true

/-- Render one part back to template source text. -/
def renderPart : ValuePart → String
  | ValuePart.literal t => t
  | ValuePart.var x => "%\x7b" ++ x ++ "\x7d"

/-- Render a part list back to template source text. -/
def renderParts (ps : List ValuePart) : String :=
  ps.foldr (fun p acc => renderPart p ++ acc) ""

theorem renderParts_nil : renderParts [] = "" := rfl

theorem renderParts_cons (p : ValuePart) (ps : List ValuePart) :
    (renderParts (p :: ps)).data = (renderPart p).data ++ (renderParts ps).data := by
  simp [renderParts, String.data_append]

theorem renderParts_append (l₁ l₂ : List ValuePart) :
    (renderParts (l₁ ++ l₂)).data = (renderParts l₁).data ++ (renderParts l₂).data := by
  induction l₁ with
  | nil => simp [renderParts_nil]
  | cons p ps ih => simp [renderParts_cons, ih]

theorem nameRun_dropWhile (run tail : List Char) (hr : ∀ c' ∈ run, isNameCh c' = true) :
    (run ++ '}' :: tail).dropWhile isNameCh = '}' :: tail := by
  induction run with
  | nil => simp [List.dropWhile_cons, show isNameCh '}' = false from rfl]
  | cons a t ih =>
    rw [List.cons_append, List.dropWhile_cons]
    simp only [hr a (by simp), if_true]
    exact ih fun x hx => hr x (by simp [hx])

theorem nameRun_takeWhile (run tail : List Char) (hr : ∀ c' ∈ run, isNameCh c' = true) :
    (run ++ '}' :: tail).takeWhile isNameCh = run := by
  induction run with
  | nil => simp [List.takeWhile_cons, show isNameCh '}' = false from rfl]
  | cons a t ih =>
    rw [List.cons_append, List.takeWhile_cons]
    simp only [hr a (by simp), if_true]
    simp only [List.cons.injEq, true_and]
    exact ih fun x hx => hr x (by simp [hx])

theorem matchExpansion_mk (c : Char) (run tail : List Char)
    (ha : isAlphaCh c = true) (hr : ∀ c' ∈ run, isNameCh c' = true) :
    matchExpansion ('%' :: '{' :: c :: (run ++ '}' :: tail)) =
      some (String.mk (c :: run), tail) := by
  unfold matchExpansion
  simp [ha, nameRun_dropWhile run tail hr, nameRun_takeWhile run tail hr]

theorem matchExpansion_append {l : List Char} {nm : String} {tail : List Char}
    (m : List Char) (h : matchExpansion l = some (nm, tail)) :
    matchExpansion (l ++ m) = some (nm, tail ++ m) := by
  obtain ⟨c, run, hl, ha, hr, hnm⟩ := matchExpansion_some_shape h
  subst hl hnm
  have := matchExpansion_mk c run (tail ++ m) ha hr
  simpa using this

theorem parseLoop_render (acc input : List Char) :
    (renderParts (parseLoop acc input)).data = acc.reverse ++ input := by
  induction acc, input using parseLoop.induct with
  | case1 acc input nm tail hm ih =>
    obtain ⟨c, run, hl, ha, hr, hnm⟩ := matchExpansion_some_shape hm
    rw [parseLoop_eq_some acc hm, renderParts_append, renderParts_cons]
    subst hl hnm
    have hone : (renderParts
        (if acc.isEmpty then [] else [ValuePart.literal (String.mk acc.reverse)])).data =
          acc.reverse := by
      by_cases hacc : acc.isEmpty
      · have : acc = [] := by simpa [List.isEmpty_iff] using hacc
        subst this
        simp [renderParts_nil]
      · simp [hacc, renderParts_cons, renderParts_nil, renderPart]
    rw [hone, ih]
    simp [renderPart, String.data_append]
  | case2 acc h1 h2 h3 =>
    rw [parseLoop_eq_nil acc]
    have : acc = [] := by simpa [List.isEmpty_iff] using h2
    subst this
    simp [renderParts_nil]
  | case3 acc h1 h2 h3 =>
    rw [parseLoop_eq_nil acc]
    simp only [h2, if_false]
    simp [renderParts_cons, renderParts_nil, renderPart]
  | case4 acc c rest h1 h2 ih =>
    rw [parseLoop_eq_cons acc h1]
    simpa using ih

/-- Reconstruction: rendering the parsed parts in order reproduces the
raw template exactly (nothing is lost or reordered; malformed
references survive inside literal parts). -/
theorem parseString_render (s : String) : renderParts (parseString s) = s := by
  apply String.ext
  rw [parseString_eq_loop]
  simpa using parseLoop_render [] s.data

theorem parseLoop_parts (acc input : List Char)
    (hacc : ∀ i, i < acc.length → matchExpansion (acc.reverse.drop i ++ input) = none) :
    ∀ p ∈ parseLoop acc input,
      (∀ x, p = ValuePart.var x → goodName x) ∧
      (∀ t, p = ValuePart.literal t →
        t.data ≠ [] ∧ ∀ i, matchExpansion (t.data.drop i) = none) := by
  induction acc, input using parseLoop.induct with
  | case1 acc input nm tail hm ih =>
    intro p hp
    rw [parseLoop_eq_some acc hm] at hp
    rcases List.mem_append.mp hp with hp | hp
    · by_cases hacc' : acc.isEmpty
      · simp [hacc'] at hp
      · have hp' : p = ValuePart.literal (String.mk acc.reverse) := by
          simpa [hacc'] using hp
        subst hp'
        refine ⟨by simp, fun t ht => ?_⟩
        cases ht
        refine ⟨by simp [List.isEmpty_iff] at hacc'; simpa using hacc', fun i => ?_⟩
        by_cases hi : i < acc.length
        · by_contra hne
          rcases ho : matchExpansion ((String.mk acc.reverse).data.drop i) with _ | pr
          · exact hne ho
          · obtain ⟨nm', tl'⟩ := pr
            have happ := matchExpansion_append input ho
            have h2 := hacc i hi
            have hsame : (String.mk acc.reverse).data.drop i ++ input =
                acc.reverse.drop i ++ input := rfl
            rw [hsame] at happ
            rw [h2] at happ
            cases happ
        · have hnil : (String.mk acc.reverse).data.drop i = [] :=
            List.drop_eq_nil_of_le (by simpa using Nat.le_of_not_lt hi)
          rw [hnil]
          rfl
    · rcases List.mem_cons.mp hp with hp | hp
      · subst hp
        refine ⟨fun x hx => ?_, by simp⟩
        cases hx
        obtain ⟨c, run, hl, ha, hr, hnm⟩ := matchExpansion_some_shape hm
        subst hnm
        exact ⟨ha, hr⟩
      · exact ih (by intro i hi; simp at hi) p hp
  | case2 acc h1 h2 h3 =>
    intro p hp
    rw [parseLoop_eq_nil acc] at hp
    simp [h2] at hp
  | case3 acc h1 h2 h3 =>
    intro p hp
    rw [parseLoop_eq_nil acc] at hp
    have hp' : p = ValuePart.literal (String.mk acc.reverse) := by
      simpa [h2] using hp
    subst hp'
    refine ⟨by simp, fun t ht => ?_⟩
    cases ht
    refine ⟨by simp [List.isEmpty_iff] at h2; simpa using h2, fun i => ?_⟩
    by_cases hi : i < acc.length
    · have h2' := hacc i hi
      simpa using h2'
    · have hnil : (String.mk acc.reverse).data.drop i = [] :=
        List.drop_eq_nil_of_le (by simpa using Nat.le_of_not_lt hi)
      rw [hnil]
      rfl
  | case4 acc c rest h1 h2 ih =>
    intro p hp
    rw [parseLoop_eq_cons acc h1] at hp
    refine ih ?_ p hp
    intro i hi
    simp only [List.reverse_cons]
    by_cases hile : i < acc.length
    · have h2' := hacc i hile
      rw [List.drop_append_of_le_length (by simpa using Nat.le_of_lt hile)]
      simpa using h2'
    · have hieq : i = acc.length := by simp at hi; omega
      subst hieq
      rw [List.drop_append_of_le_length (by simp)]
      rw [show List.drop acc.length acc.reverse = [] from
        List.drop_eq_nil_of_le (by simp)]
      simpa using h1

/-- Every part of a parsed template is either a variable whose name
matches the reference grammar, or a non-empty literal that contains no
well-formed reference at any position. -/
theorem parseString_parts (s : String) :
    ∀ p ∈ parseString s,
      (∀ x, p = ValuePart.var x → goodName x) ∧
      (∀ t, p = ValuePart.literal t →
        t.data ≠ [] ∧ ∀ i, matchExpansion (t.data.drop i) = none) := by
  rw [parseString_eq_loop]
  exact parseLoop_parts [] s.data (by intro i hi; simp at hi)

theorem parseLoop_no_match (acc input : List Char)
    (h : ∀ i, matchExpansion (input.drop i) = none) :
    parseLoop acc input =
      if (acc.reverse ++ input).isEmpty then []
      else [ValuePart.literal (String.mk (acc.reverse ++ input))] := by
  induction acc, input using parseLoop.induct with
  | case1 acc input nm tail hm ih =>
    have := h 0
    rw [List.drop_zero] at this
    rw [this] at hm
    cases hm
  | case2 acc h1 h2 h3 =>
    have : acc = [] := by simpa [List.isEmpty_iff] using h2
    subst this
    rw [parseLoop_eq_nil []]
    simp
  | case3 acc h1 h2 h3 =>
    rw [parseLoop_eq_nil acc]
    have hne : acc ≠ [] := by simpa [List.isEmpty_iff] using h2
    simp [h2, List.isEmpty_iff, hne]
  | case4 acc c rest h1 h2 ih =>
    rw [parseLoop_eq_cons acc h1]
    rw [ih (fun i => by simpa using h (i + 1))]
    simp

/-- Decidable check that a raw string contains no well-formed `%{name}`
reference at any position. -/
def noRefB (s : String) : Bool :=
  (List.range s.data.length).all fun i => (matchExpansion (s.data.drop i)).isNone

theorem noRefB_correct {s : String} (h : noRefB s = true) :
    ∀ i, matchExpansion (s.data.drop i) = none := by
  intro i
  by_cases hi : i < s.data.length
  · have := List.all_eq_true.mp h i (List.mem_range.mpr hi)
    simpa [Option.isNone_iff_eq_none] using this
  · rw [List.drop_eq_nil_of_le (Nat.le_of_not_lt hi)]
    rfl

theorem parseString_of_no_match {s : String}
    (h : ∀ i, matchExpansion (s.data.drop i) = none) :
    parseString s = if s.data.isEmpty then [] else [ValuePart.literal s] := by
  have hres := parseLoop_no_match [] s.data h
  rw [parseString_eq_loop, hres]
  rcases s with ⟨data⟩
  simp

theorem varNamesList_of_no_match {s : String}
    (h : ∀ i, matchExpansion (s.data.drop i) = none) :
    varNamesList s = [] := by
  unfold varNamesList
  rw [parseString_of_no_match h]
  by_cases hs : s.data.isEmpty <;> simp [hs]

/-! ## Value-table lemmas -/

theorem lookupV_mem {values : Variables} {k : String} {v : Value}
    (h : lookupV values k = some v) : (k, v) ∈ values := by
  induction values with
  | nil => cases h
  | cons p rest ih =>
    unfold lookupV at h
    split at h
    next hpk =>
      rcases p with ⟨p1, p2⟩
      obtain rfl : p2 = v := by simpa using h
      simp only at hpk
      subst hpk
      exact List.mem_cons_self _ _
    next => exact List.mem_cons_of_mem _ (ih h)

theorem lookupV_setV (values : Variables) (m : String) (v : Value) (k : String) :
    lookupV (setV values m v) k =
      if k = m then (lookupV values m).map fun _ => v else lookupV values k := by
  induction values with
  | nil => simp [setV, lookupV]
  | cons p rest ih =>
    unfold setV lookupV
    by_cases hpm : p.1 = m
    · by_cases hkm : k = m
      · subst hkm
        simp [hpm, lookupV, ih]
      · simp only [hpm, if_true, lookupV]
        have : ¬ m = k := fun hc => hkm hc.symm
        simp [this, hkm, ih, hpm.symm ▸ (show ¬ p.1 = k by rw [hpm]; exact this)]
    · by_cases hpk : p.1 = k
      · have hkm : ¬ k = m := by rw [← hpk]; exact hpm
        simp [hpm, lookupV, hpk, hkm]
      · simp [hpm, lookupV, hpk, ih]

theorem lookupV_setV_self {values : Variables} {m : String} {w : Value} (v : Value)
    (h : lookupV values m = some w) : lookupV (setV values m v) m = some v := by
  rw [lookupV_setV, if_pos rfl, h]
  rfl

theorem lookupV_setV_ne {values : Variables} {m k : String} (v : Value)
    (h : ¬ k = m) : lookupV (setV values m v) k = lookupV values k := by
  rw [lookupV_setV, if_neg h]

theorem setV_keys (values : Variables) (m : String) (v : Value) :
    (setV values m v).map Prod.fst = values.map Prod.fst := by
  induction values with
  | nil => rfl
  | cons p rest ih =>
    unfold setV
    by_cases hpm : p.1 = m
    · simp [hpm, ih]
    · simp [hpm, ih]

theorem maxDeps_pos (values : Variables) : 1 ≤ maxDeps values := by
  induction values with
  | nil => simp [maxDeps]
  | cons p rest ih =>
    unfold maxDeps at ih ⊢
    simp only [List.foldr_cons]
    omega

theorem maxDeps_le {values : Variables} {k : String} {v : Value}
    (h : (k, v) ∈ values) : (varNamesList v.template).length ≤ maxDeps values := by
  induction values with
  | nil => cases h
  | cons p rest ih =>
    unfold maxDeps
    simp only [List.foldr_cons]
    rcases List.mem_cons.mp h with h | h
    · subst h
      exact Nat.le_max_left _ _
    · have := ih h
      unfold maxDeps at this
      omega

theorem dependencies_length_le {values : Variables} {k : String} {v : Value}
    (h : lookupV values k = some v) : v.dependencies.length ≤ maxDeps values := by
  unfold Value.dependencies
  rcases hres : v.resolved with _ | r
  · exact maxDeps_le (lookupV_mem h)
  · simp

/-! ## The reference semantics of full expansion -/

/-- Direct dependency edge: the template of `a` references `b`. -/
def DepEdge (values : Variables) (a b : String) : Prop :=
  ∃ v, lookupV values a = some v ∧ b ∈ varNamesList v.template

/-- Big-step reference semantics.  `.inl n` is the full expansion of the
stored variable `n`; `.inr ps` is the concatenation of a part list with
every variable part replaced, in order, by its full expansion.  It is
determined by the stored templates alone — memos play no role. -/
inductive Res (values : Variables) : String ⊕ List ValuePart → String → Prop where
  | name {n : String} {v : Value} {s : String} :
      lookupV values n = some v → Res values (.inr (parseString v.template)) s →
      Res values (.inl n) s
  | nil : Res values (.inr []) ""
  | lit {t : String} {rest : List ValuePart} {s : String} :
      Res values (.inr rest) s →
      Res values (.inr (ValuePart.literal t :: rest)) (t ++ s)
  | var {x sx : String} {rest : List ValuePart} {s : String} :
      Res values (.inl x) sx → Res values (.inr rest) s →
      Res values (.inr (ValuePart.var x :: rest)) (sx ++ s)

/-- `ResolvesTo values n s`: the full expansion of variable `n` is `s`. -/
def ResolvesTo (values : Variables) (n s : String) : Prop :=
  Res values (Sum.inl n) s

theorem Res.deterministic {values : Variables} {a : String ⊕ List ValuePart}
    {s₁ : String} (h₁ : Res values a s₁) :
    ∀ {s₂ : String}, Res values a s₂ → s₁ = s₂ := by
  induction h₁ with
  | name hl hp ih =>
    intro s₂ h₂
    cases h₂ with
    | name hl' hp' =>
      rw [hl] at hl'
      cases hl'
      exact ih hp'
  | nil =>
    intro s₂ h₂
    cases h₂
    rfl
  | lit hrest ih =>
    intro s₂ h₂
    cases h₂ with
    | lit hrest' => rw [ih hrest']
  | var hx hrest ihx ihrest =>
    intro s₂ h₂
    cases h₂ with
    | var hx' hrest' => rw [ihx hx', ihrest hrest']

theorem mem_varNamesList {t x : String} :
    x ∈ varNamesList t ↔ ValuePart.var x ∈ parseString t := by
  unfold varNamesList
  rw [List.mem_dedup, List.mem_filterMap]
  constructor
  · rintro ⟨p, hp, he⟩
    cases p with
    | literal t' => simp at he
    | var y =>
      simp at he
      subst he
      exact hp
  · intro hp
    exact ⟨_, hp, rfl⟩

/-- Everything reachable from `n` is defined and the reachable
dependency graph is acyclic: the least fixed point of "defined, with
every referenced name expandable". -/
inductive Expandable (values : Variables) : String → Prop where
  | mk {n : String} {v : Value} :
      lookupV values n = some v →
      (∀ x ∈ varNamesList v.template, Expandable values x) →
      Expandable values n

theorem Expandable.elim' {values : Variables} {n : String} (h : Expandable values n) :
    ∃ v, lookupV values n = some v ∧ ∀ x ∈ varNamesList v.template, Expandable values x := by
  cases h with
  | mk hl hd => exact ⟨_, hl, hd⟩

theorem Expandable.exists_res {values : Variables} {n : String}
    (h : Expandable values n) : ∃ s, Res values (Sum.inl n) s := by
  induction h with
  | mk hl hdeps ih =>
    rename_i n v
    suffices hps : ∀ ps : List ValuePart,
        (∀ x, ValuePart.var x ∈ ps → ∃ s, Res values (Sum.inl x) s) →
        ∃ s, Res values (Sum.inr ps) s by
      obtain ⟨s, hs⟩ := hps (parseString v.template) fun x hx =>
        ih x (mem_varNamesList.mpr hx)
      exact ⟨s, Res.name hl hs⟩
    intro ps
    induction ps with
    | nil => exact fun _ => ⟨"", Res.nil⟩
    | cons p rest ihp =>
      intro hvars
      obtain ⟨s, hs⟩ := ihp fun x hx => hvars x (List.mem_cons_of_mem _ hx)
      cases p with
      | literal t => exact ⟨t ++ s, Res.lit hs⟩
      | var x =>
        obtain ⟨sx, hsx⟩ := hvars x (List.mem_cons_self _ _)
        exact ⟨sx ++ s, Res.var hsx hs⟩

/-- The dependency relation oriented for well-founded descent: `x` is a
direct dependency of `y`. -/
def depRel (values : Variables) (x y : String) : Prop := DepEdge values y x

theorem Expandable.acc {values : Variables} {n : String}
    (h : Expandable values n) : Acc (depRel values) n := by
  induction h with
  | mk hl hdeps ih =>
    constructor
    intro y hy
    obtain ⟨v', hv', hmem⟩ := hy
    rw [hl] at hv'
    cases hv'
    exact ih y hmem

theorem acc_not_self_rel {α : Sort _} {r : α → α → Prop} {a : α} (h : Acc r a) :
    ¬ r a a := by
  induction h with
  | intro x hx ih => exact fun hxx => ih x hxx hxx

theorem Expandable.no_cycle {values : Variables} {a : String}
    (h : Expandable values a) : ¬ Relation.TransGen (DepEdge values) a a := by
  intro hc
  have hacc : Acc (Relation.TransGen (depRel values)) a := h.acc.transGen
  have hswap : Relation.TransGen (depRel values) a a := by
    have : Relation.TransGen (Function.swap (DepEdge values)) a a :=
      (Relation.transGen_swap).mpr hc
    exact this
  exact acc_not_self_rel hacc hswap

/-- The invariant of a `ResolutionStep`'s ancestor chain during a
resolution whose reachable graph is expandable: the chain descends the
dependency graph from the requested name, every link is an edge, and
every chain member is expandable. -/
inductive ChainOK (values : Variables) : Option String → List (Option String) → Prop where
  | root : ChainOK values none []
  | top {x : String} : Expandable values x → ChainOK values (some x) [none]
  | deep {a b : String} {ch : List (Option String)} :
      ChainOK values (some b) ch → DepEdge values b a → Expandable values a →
      ChainOK values (some a) (some b :: ch)

theorem ChainOK.reaches {values : Variables} {o : Option String}
    {ch : List (Option String)} (h : ChainOK values o ch) :
    ∀ a c, o = some a → some c ∈ ch → Relation.TransGen (DepEdge values) c a := by
  induction h with
  | root => intro a c ha hc; cases hc
  | top hx =>
    intro a c ha hc
    simp at hc
  | deep hch he hx ih =>
    intro a c ha hc
    cases ha
    rcases List.mem_cons.mp hc with hc | hc
    · cases hc
      exact Relation.TransGen.single he
    · exact Relation.TransGen.tail (ih _ c rfl hc) he

theorem ChainOK.not_mem {values : Variables} {o : Option String}
    {ch : List (Option String)} (h : ChainOK values o ch) : o ∉ ch := by
  cases h with
  | root => simp
  | top hx => simp
  | deep hch he hx =>
    rename_i a b ch'
    intro hmem
    have hcyc : Relation.TransGen (DepEdge values) a a := by
      rcases List.mem_cons.mp hmem with hab | hmem'
      · cases hab
        exact Relation.TransGen.single he
      · exact Relation.TransGen.tail (hch.reaches b a rfl hmem') he
    exact hx.no_cycle hcyc

/-! ## Store-state relations -/

/-- Two tables have the same keys, in the same order, with the same
templates: only the memos may differ. -/
def SameT (w w' : Variables) : Prop :=
  ∀ k, Option.map Value.template (lookupV w' k) = Option.map Value.template (lookupV w k)

theorem SameT.refl (w : Variables) : SameT w w := fun _ => rfl

theorem SameT.comp {w₁ w₂ w₃ : Variables} (h₁ : SameT w₁ w₂) (h₂ : SameT w₂ w₃) :
    SameT w₁ w₃ := fun k => (h₂ k).trans (h₁ k)

theorem Res.sameT {w w' : Variables} (h : SameT w w') {a : String ⊕ List ValuePart}
    {s : String} (hr : Res w a s) : Res w' a s := by
  induction hr with
  | name hl hp ih =>
    rename_i n v s'
    have hk := h n
    rcases hlk : lookupV w' n with _ | v'
    · rw [hl, hlk] at hk
      cases hk
    · rw [hl, hlk] at hk
      simp at hk
      exact Res.name hlk (by rw [hk]; exact ih)
  | nil => exact Res.nil
  | lit hrest ih => exact Res.lit ih
  | var hx hrest ihx ihrest => exact Res.var ihx ihrest

theorem Expandable.transport {w w' : Variables} (h : SameT w w') {n : String}
    (he : Expandable w n) : Expandable w' n := by
  induction he with
  | mk hl hdeps ih =>
    rename_i n v
    have hk := h n
    rcases hlk : lookupV w' n with _ | v'
    · rw [hl, hlk] at hk
      cases hk
    · rw [hl, hlk] at hk
      simp at hk
      exact Expandable.mk hlk fun x hx => ih x (by rw [hk] at hx; exact hx)

/-- Every set memo agrees with the reference semantics. -/
def MemOK (values : Variables) : Prop :=
  ∀ k v r, lookupV values k = some v → v.resolved = some r → Res values (Sum.inl k) r

/-! ## Phase-one loop lemmas -/

theorem processNames_ok_fi {values : Variables} {cc : List (Option String)} :
    ∀ {names : List String} {stack : List Step} {deps : List String}
      {stack' : List Step} {deps' : List String} {fi' : Bool},
    processNames values cc names stack deps false = PNOut.ok stack' deps' fi' →
    fi' = false := by
  intro names
  induction names with
  | nil =>
    intro stack deps stack' deps' fi' h
    simp only [processNames, PNOut.ok.injEq] at h
    exact h.2.2.symm
  | cons x rest ih =>
    intro stack deps stack' deps' fi' h
    rcases hl : lookupV values x with _ | v
    · simp only [processNames, hl] at h
      cases h
    · rcases hr : v.resolved with _ | r
      · simp only [processNames, hl, hr] at h
        exact ih h
      · simp only [processNames, hl, hr, Bool.false_eq_true, if_false] at h
        exact ih h

theorem processNames_false_no_early {values : Variables} {cc : List (Option String)}
    {s : String} :
    ∀ {names : List String} {stack : List Step} {deps : List String},
    processNames values cc names stack deps false ≠ PNOut.early s := by
  intro names
  induction names with
  | nil => intro stack deps h; cases h
  | cons x rest ih =>
    intro stack deps h
    rcases hl : lookupV values x with _ | v
    · simp only [processNames, hl] at h
      cases h
    · rcases hr : v.resolved with _ | r
      · simp only [processNames, hl, hr] at h
        exact ih h
      · simp only [processNames, hl, hr, Bool.false_eq_true, if_false] at h
        exact ih h

theorem resolveLoop_false_no_early {values : Variables} {s : String} :
    ∀ {fuel : Nat} {stack : List Step} {deps : List String},
    resolveLoop values fuel stack deps false ≠ LoopOut.early s := by
  intro fuel
  induction fuel with
  | zero => intro stack deps h; cases h
  | succ fuel ih =>
    intro stack deps h
    match stack, h with
    | [], h => cases h
    | st :: stack, h =>
      unfold resolveLoop at h
      by_cases hcirc : st.referee ∈ st.chain
      · rw [if_pos hcirc] at h; cases h
      · rw [if_neg hcirc] at h
        rcases hpn : processNames values (st.referee :: st.chain) st.varnames stack deps false
          with ⟨stack', deps', fi'⟩ | ⟨s'⟩ | ⟨e⟩
        · rw [hpn] at h
          have hfi : fi' = false := processNames_ok_fi hpn
          subst hfi
          exact ih h
        · rw [hpn] at h
          cases h
          exact processNames_false_no_early hpn
        · rw [hpn] at h; cases h

theorem resolveLoop_start (values : Variables) (fuel : Nat) (n : String) :
    resolveLoop values (fuel + 1) [{ referee := none, varnames := [n], chain := [] }] [] true =
      match lookupV values n with
      | none => LoopOut.err (.undefinedVar n)
      | some v =>
        match v.resolved with
        | some r => LoopOut.early r
        | none =>
          resolveLoop values fuel
            (if v.dependencies.isEmpty then []
             else [{ referee := some n, varnames := v.dependencies, chain := [none] }])
            [n] false := by
  rcases hl : lookupV values n with _ | v
  · simp [resolveLoop, processNames, hl]
  · rcases hr : v.resolved with _ | r
    · simp [resolveLoop, processNames, hl, hr]
    · simp [resolveLoop, processNames, hl, hr]

/-! ## The coverage invariant of the dependency queue -/

/-- `x` carries a set memo in the table. -/
def resolvedIn (values : Variables) (x : String) : Prop :=
  ∃ v r, lookupV values x = some v ∧ v.resolved = some r

/-- `x` is referenced by the template of the `i`-th queue entry. -/
def depNamesAt (values : Variables) (d : List String) (i : Nat) (x : String) : Prop :=
  ∃ m v, d.get? i = some m ∧ lookupV values m = some v ∧ x ∈ varNamesList v.template

/-- Mid-loop form of the queue invariant: every name referenced by a
queued entry is already resolved, queued later, or pending in some
step still on the stack. -/
def CovPending (values : Variables) (stack : List Step) (d : List String) : Prop :=
  ∀ i x, depNamesAt values d i x →
    resolvedIn values x ∨ x ∈ d.drop (i + 1) ∨ ∃ st ∈ stack, x ∈ st.varnames

/-- Final form, with the stack exhausted: dependencies of queue entries
are resolved or appear later in the queue. -/
def Coverage (values : Variables) (d : List String) : Prop :=
  ∀ i x, depNamesAt values d i x → resolvedIn values x ∨ x ∈ d.drop (i + 1)

/-- Every queued entry is a defined, unresolved variable. -/
def DWf (values : Variables) (d : List String) : Prop :=
  ∀ m ∈ d, ∃ v, lookupV values m = some v ∧ v.resolved = none

theorem processNames_cov {values : Variables} {cc : List (Option String)} :
    ∀ {names : List String} {stack : List Step} {d : List String} {fi : Bool}
      {stack' : List Step} {d' : List String} {fi' : Bool},
    (∀ i x, depNamesAt values d i x →
      resolvedIn values x ∨ x ∈ d.drop (i + 1) ∨
        (∃ st ∈ stack, x ∈ st.varnames) ∨ x ∈ names) →
    DWf values d →
    processNames values cc names stack d fi = PNOut.ok stack' d' fi' →
    CovPending values stack' d' ∧ DWf values d' ∧ ∃ t, d' = d ++ t := by
  intro names
  induction names with
  | nil =>
    intro stack d fi stack' d' fi' hcov hwf h
    simp only [processNames, PNOut.ok.injEq] at h
    obtain ⟨h1, h2, h3⟩ := h
    subst h1 h2
    refine ⟨?_, hwf, [], by simp⟩
    intro i x hd
    rcases hcov i x hd with hres | hdrop | hstk | hnm
    · exact Or.inl hres
    · exact Or.inr (Or.inl hdrop)
    · exact Or.inr (Or.inr hstk)
    · cases hnm
  | cons x rest ih =>
    intro stack d fi stack' d' fi' hcov hwf h
    rcases hl : lookupV values x with _ | v
    · simp only [processNames, hl] at h
      cases h
    · rcases hr : v.resolved with _ | r
      · -- unresolved: appended to the queue, dependencies pushed
        simp only [processNames, hl, hr] at h
        refine (ih ?_ ?_ h).imp id (fun hh => ⟨hh.1, ?_⟩)
        · -- transformed coverage hypothesis
          intro i y hd
          by_cases hi : i < d.length
          · have hd' : depNamesAt values d i y := by
              obtain ⟨m, vm, hg, hlm, hmem⟩ := hd
              exact ⟨m, vm, by rw [← List.get?_append hi]; exact hg, hlm, hmem⟩
            rcases hcov i y hd' with hres | hdrop | hstk | hnm
            · exact Or.inl hres
            · refine Or.inr (Or.inl ?_)
              rw [List.drop_append_of_le_length (by omega)]
              exact List.mem_append_left _ hdrop
            · refine Or.inr (Or.inr (Or.inl ?_))
              obtain ⟨st, hst, hy⟩ := hstk
              refine ⟨st, ?_, hy⟩
              split
              · exact hst
              · exact List.mem_cons_of_mem _ hst
            · rcases List.mem_cons.mp hnm with hyx | hyr
              · subst hyx
                refine Or.inr (Or.inl ?_)
                rw [List.drop_append_of_le_length (by omega)]
                exact List.mem_append_right _ (by simp)
              · exact Or.inr (Or.inr (Or.inr hyr))
          · obtain ⟨m, vm, hg, hlm, hmem⟩ := hd
            by_cases hieq : i = d.length
            · subst hieq
              have hm : m = x := by
                rw [List.get?_concat_length] at hg
                cases hg
                rfl
              rw [hm] at hlm
              rw [hl] at hlm
              cases hlm
              refine Or.inr (Or.inr (Or.inl ?_))
              have hds : y ∈ v.dependencies := by
                unfold Value.dependencies
                rw [hr]
                exact hmem
              have hne : ¬ v.dependencies.isEmpty := by
                intro hc
                rw [List.isEmpty_iff] at hc
                rw [hc] at hds
                cases hds
              refine ⟨⟨some x, v.dependencies, cc⟩, ?_, hds⟩
              simp [hne]
            · have : d.length + 1 ≤ i := by omega
              rw [List.get?_eq_none.mpr (by simp; omega)] at hg
              cases hg
        · -- DWf of the extended queue
          intro m hm
          rcases List.mem_append.mp hm with hm | hm
          · exact hwf m hm
          · rw [List.mem_singleton] at hm
            subst hm
            exact ⟨v, hl, hr⟩
        · obtain ⟨t, ht⟩ := hh.2
          exact ⟨x :: t, by rw [ht]; simp⟩
      · -- already resolved: skipped
        have hstep : processNames values cc (x :: rest) stack d fi =
            if fi then PNOut.early r else processNames values cc rest stack d false := by
          simp only [processNames, hl, hr]
        rw [hstep] at h
        by_cases hfi : fi
        · rw [if_pos hfi] at h
          cases h
        · rw [if_neg hfi] at h
          refine ih ?_ hwf h
          intro i y hd
          rcases hcov i y hd with hres | hdrop | hstk | hnm
          · exact Or.inl hres
          · exact Or.inr (Or.inl hdrop)
          · exact Or.inr (Or.inr (Or.inl hstk))
          · rcases List.mem_cons.mp hnm with hyx | hyr
            · subst hyx
              exact Or.inl ⟨v, r, hl, hr⟩
            · exact Or.inr (Or.inr (Or.inr hyr))

theorem resolveLoop_cov {values : Variables} :
    ∀ {fuel : Nat} {stack : List Step} {d : List String} {fi : Bool} {d' : List String},
    CovPending values stack d → DWf values d →
    resolveLoop values fuel stack d fi = LoopOut.complete d' →
    Coverage values d' ∧ DWf values d' ∧ ∃ t, d' = d ++ t := by
  intro fuel
  induction fuel with
  | zero => intro stack d fi d' _ _ h; cases h
  | succ fuel ih =>
    intro stack d fi d' hcov hwf h
    match stack, h with
    | [], h =>
      cases h
      refine ⟨?_, hwf, [], by simp⟩
      intro i x hd
      rcases hcov i x hd with hres | hdrop | hstk
      · exact Or.inl hres
      · exact Or.inr hdrop
      · obtain ⟨st, hst, _⟩ := hstk
        cases hst
    | st :: stack, h =>
      unfold resolveLoop at h
      by_cases hcirc : st.referee ∈ st.chain
      · rw [if_pos hcirc] at h; cases h
      · rw [if_neg hcirc] at h
        rcases hpn : processNames values (st.referee :: st.chain) st.varnames stack d fi
          with ⟨stack₁, d₁, fi₁⟩ | ⟨s'⟩ | ⟨e⟩
        · rw [hpn] at h
          have hcov' : ∀ i x, depNamesAt values d i x →
              resolvedIn values x ∨ x ∈ d.drop (i + 1) ∨
                (∃ st' ∈ stack, x ∈ st'.varnames) ∨ x ∈ st.varnames := by
            intro i x hd
            rcases hcov i x hd with hres | hdrop | hstk
            · exact Or.inl hres
            · exact Or.inr (Or.inl hdrop)
            · obtain ⟨st', hst', hx⟩ := hstk
              rcases List.mem_cons.mp hst' with h1 | h1
              · subst h1
                exact Or.inr (Or.inr (Or.inr hx))
              · exact Or.inr (Or.inr (Or.inl ⟨st', h1, hx⟩))
          obtain ⟨hc1, hw1, t1, ht1⟩ := processNames_cov hcov' hwf hpn
          obtain ⟨hc2, hw2, t2, ht2⟩ := ih hc1 hw1 h
          exact ⟨hc2, hw2, t1 ++ t2, by rw [ht2, ht1]; simp⟩
        · rw [hpn] at h; cases h
        · rw [hpn] at h; cases h

/-! ## Termination of the step loop -/

/-- Values a chain entry can take: the top-level `none` referee, or a
referee that names a stored key. -/
def allowedRef (values : Variables) (o : Option String) : Prop :=
  o = none ∨ ∃ k, o = some k ∧ (lookupV values k).isSome

/-- Structural invariant of a stack step used for the fuel bound. -/
def StepBound (values : Variables) (st : Step) : Prop :=
  st.varnames.length ≤ maxDeps values ∧
  st.chain.Nodup ∧
  (∀ o ∈ st.chain, allowedRef values o) ∧
  allowedRef values st.referee

/-- Potential of one step: shrinks geometrically with chain depth. -/
def potStep (values : Variables) (st : Step) : Nat :=
  (maxDeps values + 1) ^ (values.length + 2 - st.chain.length)

/-- Potential of the whole stack. -/
def pot (values : Variables) (stack : List Step) : Nat :=
  (stack.map (potStep values)).sum

theorem chain_length_le {values : Variables} {ch : List (Option String)}
    (hnodup : ch.Nodup) (hall : ∀ o ∈ ch, allowedRef values o) :
    ch.length ≤ values.length + 1 := by
  have hsub : ch ⊆ none :: values.map fun p => some p.1 := by
    intro o ho
    rcases hall o ho with h | ⟨k, hk, hs⟩
    · subst h
      exact List.mem_cons_self _ _
    · subst hk
      rcases hlk : lookupV values k with _ | v
      · rw [hlk] at hs
        cases hs
      · have := lookupV_mem hlk
        refine List.mem_cons_of_mem _ ?_
        exact List.mem_map.mpr ⟨(k, v), this, rfl⟩
  calc ch.length = ch.toFinset.card := (List.toFinset_card_of_nodup hnodup).symm
    _ ≤ ((none :: values.map fun p => some p.1).toFinset).card := by
        apply Finset.card_le_card
        intro o ho
        rw [List.mem_toFinset] at ho ⊢
        exact hsub ho
    _ ≤ (none :: values.map fun p => some p.1).length := List.toFinset_card_le _
    _ = values.length + 1 := by simp

theorem processNames_pot {values : Variables} {cc : List (Option String)}
    (hccn : cc.Nodup) (hcca : ∀ o ∈ cc, allowedRef values o) :
    ∀ {names : List String} {stack : List Step} {d : List String} {fi : Bool}
      {stack' : List Step} {d' : List String} {fi' : Bool},
    (∀ st ∈ stack, StepBound values st) →
    processNames values cc names stack d fi = PNOut.ok stack' d' fi' →
    (∀ st ∈ stack', StepBound values st) ∧
    pot values stack' ≤ pot values stack +
      names.length * (maxDeps values + 1) ^ (values.length + 2 - cc.length) := by
  intro names
  induction names with
  | nil =>
    intro stack d fi stack' d' fi' hstk h
    simp only [processNames, PNOut.ok.injEq] at h
    obtain ⟨h1, h2, h3⟩ := h
    subst h1
    exact ⟨hstk, by simp⟩
  | cons x rest ih =>
    intro stack d fi stack' d' fi' hstk h
    rcases hl : lookupV values x with _ | v
    · simp only [processNames, hl] at h
      cases h
    · rcases hr : v.resolved with _ | r
      · simp only [processNames, hl, hr] at h
        by_cases hemp : v.dependencies.isEmpty
        · rw [if_pos hemp] at h
          obtain ⟨hs', hp'⟩ := ih hstk h
          refine ⟨hs', le_trans hp' ?_⟩
          have : rest.length ≤ (x :: rest).length := by simp
          exact Nat.add_le_add_left (Nat.mul_le_mul_right _ (by simp)) _
        · rw [if_neg hemp] at h
          have hstep : StepBound values ⟨some x, v.dependencies, cc⟩ := by
            refine ⟨dependencies_length_le hl, hccn, hcca, Or.inr ⟨x, rfl, by rw [hl]; rfl⟩⟩
          have hstk' : ∀ st ∈ (⟨some x, v.dependencies, cc⟩ : Step) :: stack,
              StepBound values st := by
            intro st hst
            rcases List.mem_cons.mp hst with h1 | h1
            · subst h1
              exact hstep
            · exact hstk st h1
          obtain ⟨hs', hp'⟩ := ih hstk' h
          refine ⟨hs', ?_⟩
          have hpp : pot values ((⟨some x, v.dependencies, cc⟩ : Step) :: stack) =
              pot values stack +
              (maxDeps values + 1) ^ (values.length + 2 - cc.length) := by
            simp [pot, potStep]
            ring
          rw [hpp] at hp'
          refine le_trans hp' ?_
          have hlen : (x :: rest).length *
              (maxDeps values + 1) ^ (values.length + 2 - cc.length) =
              rest.length * (maxDeps values + 1) ^ (values.length + 2 - cc.length) +
              (maxDeps values + 1) ^ (values.length + 2 - cc.length) := by
            simp [List.length_cons]
            ring
          rw [hlen]
          omega
      · have hstep : processNames values cc (x :: rest) stack d fi =
            if fi then PNOut.early r else processNames values cc rest stack d false := by
          simp only [processNames, hl, hr]
        rw [hstep] at h
        by_cases hfi : fi
        · rw [if_pos hfi] at h
          cases h
        · rw [if_neg hfi] at h
          obtain ⟨hs', hp'⟩ := ih hstk h
          refine ⟨hs', le_trans hp' ?_⟩
          exact Nat.add_le_add_left (Nat.mul_le_mul_right _ (by simp)) _

theorem resolveLoop_total {values : Variables} :
    ∀ {fuel : Nat} {stack : List Step} {d : List String} {fi : Bool},
    (∀ st ∈ stack, StepBound values st) →
    pot values stack < fuel →
    resolveLoop values fuel stack d fi ≠ LoopOut.outOfFuel := by
  intro fuel
  induction fuel with
  | zero => intro stack d fi _ hp; omega
  | succ fuel ih =>
    intro stack d fi hstk hp h
    match stack, h with
    | [], h => cases h
    | st :: stack, h =>
      unfold resolveLoop at h
      by_cases hcirc : st.referee ∈ st.chain
      · rw [if_pos hcirc] at h; cases h
      · rw [if_neg hcirc] at h
        rcases hpn : processNames values (st.referee :: st.chain) st.varnames stack d fi
          with ⟨stack₁, d₁, fi₁⟩ | ⟨s'⟩ | ⟨e⟩
        · rw [hpn] at h
          obtain ⟨hb1, hb2, hb3, hb4⟩ := hstk st (List.mem_cons_self _ _)
          have hccn : (st.referee :: st.chain).Nodup := List.nodup_cons.mpr ⟨hcirc, hb2⟩
          have hcca : ∀ o ∈ st.referee :: st.chain, allowedRef values o := by
            intro o ho
            rcases List.mem_cons.mp ho with h1 | h1
            · subst h1; exact hb4
            · exact hb3 o h1
          have hcclen : (st.referee :: st.chain).length ≤ values.length + 1 :=
            chain_length_le hccn hcca
          obtain ⟨hs₁, hp₁⟩ :=
            processNames_pot hccn hcca (fun s hs => hstk s (List.mem_cons_of_mem _ hs)) hpn
          -- arithmetic: the potential strictly decreases
          have hE : 1 ≤ (maxDeps values + 1) ^
              (values.length + 2 - (st.referee :: st.chain).length) :=
            Nat.one_le_pow _ _ (by omega)
          have hexp : values.length + 2 - st.chain.length =
              (values.length + 2 - (st.referee :: st.chain).length) + 1 := by
            simp only [List.length_cons] at hcclen ⊢
            omega
          have hps : potStep values st = (maxDeps values + 1) ^
              (values.length + 2 - (st.referee :: st.chain).length) * (maxDeps values + 1) := by
            unfold potStep
            rw [hexp, pow_succ]
          have hmul : st.varnames.length * (maxDeps values + 1) ^
              (values.length + 2 - (st.referee :: st.chain).length) ≤
              maxDeps values * (maxDeps values + 1) ^
              (values.length + 2 - (st.referee :: st.chain).length) :=
            Nat.mul_le_mul_right _ hb1
          have hsum : pot values (st :: stack) = potStep values st + pot values stack := by
            simp [pot]
          have hkey : pot values stack₁ + (maxDeps values + 1) ^
              (values.length + 2 - (st.referee :: st.chain).length) ≤
              pot values (st :: stack) := by
            have h1 := le_trans hp₁ (Nat.add_le_add_left hmul _)
            rw [hsum, hps]
            have : maxDeps values * (maxDeps values + 1) ^
                (values.length + 2 - (st.referee :: st.chain).length) +
                (maxDeps values + 1) ^
                (values.length + 2 - (st.referee :: st.chain).length) =
                (maxDeps values + 1) ^
                (values.length + 2 - (st.referee :: st.chain).length) *
                (maxDeps values + 1) := by ring
            omega
          exact ih hs₁ (by omega) h
        · rw [hpn] at h; cases h
        · rw [hpn] at h; cases h

/-! ## Phase-two: finalising the dependency queue -/

/-- Every key whose memo is set maps to the very same `Value` object in
the second table: set memos are never cleared or changed. -/
def Frozen (w w' : Variables) : Prop :=
  ∀ k v, lookupV w k = some v → v.resolved ≠ none → lookupV w' k = some v

theorem Frozen.rfl (w : Variables) : Frozen w w := fun _ _ h _ => h

theorem Frozen.trans {w₁ w₂ w₃ : Variables} (h₁ : Frozen w₁ w₂) (h₂ : Frozen w₂ w₃) :
    Frozen w₁ w₃ := fun k v h hn => h₂ k v (h₁ k v h hn) hn

theorem Frozen.resolvedIn {w w' : Variables} (h : Frozen w w') {x : String}
    (hx : resolvedIn w x) : resolvedIn w' x := by
  obtain ⟨v, r, hl, hr⟩ := hx
  exact ⟨v, r, h x v hl (by rw [hr]; simp), hr⟩

/-- Set memos of `w` agree with the reference semantics over `base`. -/
def MemOKrel (base w : Variables) : Prop :=
  ∀ k v r, lookupV w k = some v → v.resolved = some r → Res base (Sum.inl k) r

theorem sameT_lookup {w w' : Variables} (h : SameT w w') {k : String} {v : Value}
    (hl : lookupV w k = some v) :
    ∃ v', lookupV w' k = some v' ∧ v'.template = v.template := by
  have hk := h k
  rcases hlk : lookupV w' k with _ | v'
  · rw [hl, hlk] at hk
    cases hk
  · rw [hl, hlk] at hk
    simp at hk
    exact ⟨v', rfl, hk⟩

theorem setV_lookup_id {w : Variables} {m : String} {v : Value}
    (h : lookupV w m = some v) : ∀ k, lookupV (setV w m v) k = lookupV w k := by
  intro k
  rw [lookupV_setV]
  by_cases hk : k = m
  · subst hk
    rw [h]
    simp
  · rw [if_neg hk]

theorem resolveParts_total {values : Variables} :
    ∀ {ps : List ValuePart},
    (∀ x, ValuePart.var x ∈ ps → resolvedIn values x) →
    ∃ s, resolveParts values ps = some s := by
  intro ps
  induction ps with
  | nil => exact fun _ => ⟨"", rfl⟩
  | cons p rest ih =>
    intro hv
    obtain ⟨s, hs⟩ := ih fun x hx => hv x (List.mem_cons_of_mem _ hx)
    cases p with
    | literal t => exact ⟨t ++ s, by simp [resolveParts, hs]⟩
    | var x =>
      obtain ⟨v, r, hl, hr⟩ := hv x (List.mem_cons_self _ _)
      exact ⟨r ++ s, by simp [resolveParts, hl, hr, hs]⟩

theorem resolveParts_res {base values : Variables} (hmo : MemOKrel base values) :
    ∀ {ps : List ValuePart} {s : String},
    resolveParts values ps = some s → Res base (Sum.inr ps) s := by
  intro ps
  induction ps with
  | nil =>
    intro s h
    simp only [resolveParts, Option.some.injEq] at h
    subst h
    exact Res.nil
  | cons p rest ih =>
    intro s h
    cases p with
    | literal t =>
      simp only [resolveParts] at h
      rcases hs : resolveParts values rest with _ | s'
      · rw [hs] at h
        cases h
      · rw [hs] at h
        simp at h
        subst h
        exact Res.lit (ih hs)
    | var x =>
      rcases hl : lookupV values x with _ | v
      · simp [resolveParts, hl] at h
      · rcases hr : v.resolved with _ | r
        · simp [resolveParts, hl, hr] at h
        · simp only [resolveParts, hl, hr] at h
          rcases hs : resolveParts values rest with _ | s'
          · rw [hs] at h
            cases h
          · rw [hs] at h
            simp at h
            subst h
            exact Res.var (hmo x v r hl hr) (ih hs)

theorem take_reverse_peel {α : Type _} (l : List α) (n : Nat) (x : α)
    (h : l.get? n = some x) :
    (l.take (n + 1)).reverse = x :: (l.take n).reverse := by
  have hn := (List.get?_eq_some.mp h).1
  have hx : l[n] = x := by
    have := (List.get?_eq_some.mp h).2
    simpa using this
  have h2 : l.take (n + 1) = (l.take n).concat l[n] := (List.take_concat_get l n hn).symm
  rw [hx] at h2
  rw [h2]
  simp

theorem drop_peel {α : Type _} (l : List α) (n : Nat) (x : α) (h : l.get? n = some x) :
    l.drop n = x :: l.drop (n + 1) := by
  have hn := (List.get?_eq_some.mp h).1
  rw [List.drop_eq_getElem_cons hn]
  have hx : l[n] = x := by
    have := (List.get?_eq_some.mp h).2
    simpa using this
  rw [hx]

/-- Resolving one queue entry against the current table: the result is
memoised, nothing already memoised changes, templates are untouched, and
the written memo is faithful to the reference semantics. -/
theorem resolve_entry {values₀ values : Variables} {m : String} {v₀ : Value}
    (hst : SameT values₀ values) (hfz : Frozen values₀ values)
    (hv₀ : lookupV values₀ m = some v₀)
    (hdeps : ∀ x ∈ varNamesList v₀.template, resolvedIn values x) :
    ∃ v s v', lookupV values m = some v ∧ v.resolve values = some (s, v') ∧
      v'.resolved = some s ∧ v'.template = v.template ∧
      SameT values₀ (setV values m v') ∧
      Frozen values (setV values m v') ∧
      resolvedIn (setV values m v') m ∧
      (MemOKrel values₀ values → MemOKrel values₀ (setV values m v')) := by
  obtain ⟨v, hv, hvt⟩ := sameT_lookup hst hv₀
  rcases hr : v.resolved with _ | r
  · -- unresolved in the current table: concatenate the parts
    have hvars : ∀ x, ValuePart.var x ∈ parseString v.template → resolvedIn values x := by
      intro x hx
      exact hdeps x (by rw [← hvt]; exact mem_varNamesList.mpr hx)
    obtain ⟨s, hs⟩ := resolveParts_total hvars
    refine ⟨v, s, { v with resolved := some s }, hv, ?_, rfl, rfl, ?_, ?_, ?_, ?_⟩
    · unfold Value.resolve
      rw [hr, hs]
    · -- SameT preserved
      intro k
      rw [lookupV_setV]
      by_cases hk : k = m
      · subst hk
        rw [hv, hv₀]
        simp [hvt]
      · rw [if_neg hk]
        exact hst k
    · -- Frozen step
      intro k w hw hwn
      rw [lookupV_setV]
      by_cases hk : k = m
      · subst hk
        rw [hv] at hw
        cases hw
        rw [hr] at hwn
        cases hwn rfl
      · rw [if_neg hk]
        exact hw
    · exact ⟨_, s, lookupV_setV_self _ hv, rfl⟩
    · -- MemOKrel preserved
      intro hmo k w rw' hw hrw
      rw [lookupV_setV] at hw
      by_cases hk : k = m
      · rw [if_pos hk, hv] at hw
        simp at hw
        subst hk
        rw [← hw] at hrw
        simp at hrw
        subst hrw
        refine Res.name hv₀ ?_
        have := resolveParts_res hmo hs
        rw [hvt] at this
        exact this
      · rw [if_neg hk] at hw
        exact hmo k w rw' hw hrw
  · -- already resolved: the memo is returned unchanged
    refine ⟨v, r, v, hv, ?_, hr, rfl, ?_, ?_, ?_, ?_⟩
    · unfold Value.resolve
      rw [hr]
    · intro k
      rw [setV_lookup_id hv k]
      exact hst k
    · intro k w hw hwn
      rw [setV_lookup_id hv k]
      exact hw
    · exact ⟨v, r, by rw [setV_lookup_id hv m]; exact hv, hr⟩
    · intro hmo k w rw' hw hrw
      rw [setV_lookup_id hv k] at hw
      exact hmo k w rw' hw hrw

theorem finalizeAux_sound {values₀ : Variables} {d : List String}
    (hcov : Coverage values₀ d) (hwf : DWf values₀ d) :
    ∀ (i : Nat), 1 ≤ i → i ≤ d.length →
    ∀ (values : Variables) (last : Option String),
    SameT values₀ values →
    Frozen values₀ values →
    (∀ m ∈ d.drop i, resolvedIn values m) →
    ∃ s values',
      finalizeAux values ((d.take i).reverse) last = some (s, values') ∧
      SameT values₀ values' ∧
      Frozen values values' ∧
      (∀ m ∈ d, resolvedIn values' m) ∧
      (MemOKrel values₀ values → MemOKrel values₀ values') ∧
      (∀ n₀, d.get? 0 = some n₀ →
        ∃ w, lookupV values' n₀ = some w ∧ w.resolved = some s) := by
  intro i
  induction i with
  | zero => intro h1; omega
  | succ j ih =>
    intro h1 h2 values last hst hfz hres
    have hjlt : j < d.length := by omega
    have hg : d.get? j = some (d.get ⟨j, hjlt⟩) := List.get?_eq_get hjlt
    set m := d.get ⟨j, hjlt⟩ with hm
    have hmem : m ∈ d := List.get?_mem hg
    obtain ⟨v₀, hv₀, hv₀r⟩ := hwf m hmem
    have hdeps : ∀ x ∈ varNamesList v₀.template, resolvedIn values x := by
      intro x hx
      rcases hcov j x ⟨m, v₀, hg, hv₀, hx⟩ with hr | hr
      · exact hfz.resolvedIn hr
      · exact hres x hr
    obtain ⟨v, s, v', hv, hres1, hv's, hv't, hst', hfz', hresm, hmo'⟩ :=
      resolve_entry hst hfz hv₀ hdeps
    have hpeel : (d.take (j + 1)).reverse = m :: (d.take j).reverse :=
      take_reverse_peel d j m hg
    have hdrop : d.drop j = m :: d.drop (j + 1) := drop_peel d j m hg
    have hstep : finalizeAux values ((d.take (j + 1)).reverse) last =
        finalizeAux (setV values m v') ((d.take j).reverse) (some s) := by
      rw [hpeel]
      simp only [finalizeAux, hv, hres1]
    match j, hg, hjlt, hdrop, hstep, ih with
    | 0, hg, hjlt, hdrop, hstep, ih =>
      refine ⟨s, setV values m v', ?_, hst', hfz', ?_, hmo', ?_⟩
      · rw [hstep]
        simp [finalizeAux]
      · intro m' hm'
        rw [show d = m :: d.drop 1 by simpa using hdrop] at hm'
        rcases List.mem_cons.mp hm' with h1 | h1
        · subst h1
          exact hresm
        · exact hfz'.resolvedIn (hres m' h1)
      · intro n₀ hn₀
        rw [hg] at hn₀
        cases hn₀
        exact ⟨v', lookupV_setV_self _ hv, hv's⟩
    | j' + 1, hg, hjlt, hdrop, hstep, ih =>
      have hres₁ : ∀ m' ∈ d.drop (j' + 1), resolvedIn (setV values m v') m' := by
        intro m' hm'
        rw [hdrop] at hm'
        rcases List.mem_cons.mp hm' with h1 | h1
        · subst h1
          exact hresm
        · exact hfz'.resolvedIn (hres m' h1)
      obtain ⟨s', values'', hfin, hst'', hfz'', hall'', hmo'', hhead''⟩ :=
        ih (by omega) (by omega) (setV values m v') (some s) hst'
          (hfz.trans hfz') hres₁
      refine ⟨s', values'', ?_, hst'', hfz'.trans hfz'', hall'',
        fun h => hmo'' (hmo' h), hhead''⟩
      rw [hstep]
      exact hfin

/-! ## Branch equations of the driver -/

theorem lookup_eq_undef {values : Variables} {name : String}
    (h : lookupV values name = none) :
    Variables.lookup values name = RResult.err (.undefinedVar name) values := by
  unfold Variables.lookup resolveNameFuel sufficientFuel
  rw [resolveLoop_start]
  simp only [h]

theorem lookup_eq_memo {values : Variables} {name : String} {v : Value} {r : String}
    (h : lookupV values name = some v) (hr : v.resolved = some r) :
    Variables.lookup values name = RResult.ok r values := by
  unfold Variables.lookup resolveNameFuel sufficientFuel
  rw [resolveLoop_start]
  simp only [h, hr]

theorem lookup_eq_loop {values : Variables} {name : String} {v : Value}
    (h : lookupV values name = some v) (hr : v.resolved = none) :
    Variables.lookup values name =
      match resolveLoop values ((maxDeps values + 1) ^ (values.length + 2))
          (if v.dependencies.isEmpty then []
           else [(⟨some name, v.dependencies, [none]⟩ : Step)]) [name] false with
      | .early s => RResult.ok s values
      | .err e => RResult.err e values
      | .outOfFuel => RResult.outOfFuel
      | .complete deps =>
        match finalizeAux values deps.reverse none with
        | some (s, values') => RResult.ok s values'
        | none => RResult.fault := by
  unfold Variables.lookup resolveNameFuel sufficientFuel
  rw [resolveLoop_start]
  simp only [h, hr]

/-! ## The combined specification of one driver call -/

theorem lookup_spec (values : Variables) (name : String) :
    (∃ e, Variables.lookup values name = RResult.err e values) ∨
    ∃ s values',
      Variables.lookup values name = RResult.ok s values' ∧
      SameT values values' ∧
      Frozen values values' ∧
      (∃ w, lookupV values' name = some w ∧ w.resolved = some s) ∧
      (MemOK values → MemOKrel values values' ∧ Res values (Sum.inl name) s) := by
  rcases hl : lookupV values name with _ | v
  · exact Or.inl ⟨VError.undefinedVar name, lookup_eq_undef hl⟩
  · rcases hr : v.resolved with _ | r
    · -- unresolved: the loop really runs
      have hdeps_eq : v.dependencies = varNamesList v.template := by
        unfold Value.dependencies
        rw [hr]
      have hcovp : CovPending values
          (if v.dependencies.isEmpty then []
           else [(⟨some name, v.dependencies, [none]⟩ : Step)])
          [name] := by
        intro i x hd
        obtain ⟨m, vm, hg, hlm, hmem⟩ := hd
        rcases i with _ | i
        · simp at hg
          subst hg
          rw [hl] at hlm
          cases hlm
          refine Or.inr (Or.inr ?_)
          have hx : x ∈ v.dependencies := by
            rw [hdeps_eq]
            exact hmem
          have hne : ¬ v.dependencies.isEmpty := by
            intro hc
            rw [List.isEmpty_iff] at hc
            rw [hc] at hx
            cases hx
          refine ⟨⟨some name, v.dependencies, [none]⟩, ?_, hx⟩
          simp [hne]
        · simp at hg
      have hdwf : DWf values [name] := by
        intro m hm
        rw [List.mem_singleton] at hm
        subst hm
        exact ⟨v, hl, hr⟩
      have hstb : ∀ st ∈ (if v.dependencies.isEmpty then []
          else [(⟨some name, v.dependencies, [none]⟩ : Step)]), StepBound values st := by
        intro st hst
        split at hst
        · cases hst
        · rw [List.mem_singleton] at hst
          subst hst
          refine ⟨dependencies_length_le hl, by simp, ?_, ?_⟩
          · intro o ho
            rw [List.mem_singleton] at ho
            subst ho
            exact Or.inl rfl
          · exact Or.inr ⟨name, rfl, by rw [hl]; rfl⟩
      have hpot : pot values (if v.dependencies.isEmpty then []
          else [(⟨some name, v.dependencies, [none]⟩ : Step)]) <
          (maxDeps values + 1) ^ (values.length + 2) := by
        have hone : 1 ≤ (maxDeps values + 1) ^ (values.length + 2) :=
          Nat.one_le_pow _ _ (by omega)
        split
        · simpa [pot] using hone
        · have hps : potStep values ⟨some name, v.dependencies, [none]⟩ =
              (maxDeps values + 1) ^ (values.length + 1) := by
            unfold potStep
            norm_num
          have hb1 : 1 < maxDeps values + 1 := by
            have := maxDeps_pos values
            omega
          have hb2 : values.length + 1 < values.length + 2 := by omega
          have hlt : (maxDeps values + 1) ^ (values.length + 1) <
              (maxDeps values + 1) ^ (values.length + 2) :=
            Nat.pow_lt_pow_right hb1 hb2
          have hsum : pot values [(⟨some name, v.dependencies, [none]⟩ : Step)] =
              potStep values ⟨some name, v.dependencies, [none]⟩ := by
            simp [pot]
          rw [hsum, hps]
          exact hlt
      rw [lookup_eq_loop hl hr]
      rcases hloop : resolveLoop values ((maxDeps values + 1) ^ (values.length + 2))
          (if v.dependencies.isEmpty then []
           else [(⟨some name, v.dependencies, [none]⟩ : Step)])
          [name] false with ⟨d'⟩ | ⟨s'⟩ | ⟨e⟩ | _
      · -- the loop completed: finalise
        obtain ⟨hcov, hwf, t, ht⟩ := resolveLoop_cov hcovp hdwf hloop
        have hlen : 1 ≤ d'.length := by
          rw [ht]
          simp
        obtain ⟨s, values', hfin, hst, hfz, hall, hmoc, hhead⟩ :=
          finalizeAux_sound hcov hwf d'.length hlen (le_refl _) values none
            (SameT.refl values) (Frozen.rfl values) (by simp)
        rw [List.take_length] at hfin
        simp only [hfin]
        refine Or.inr ⟨s, values', rfl, hst, hfz, ?_, ?_⟩
        · exact hhead name (by rw [ht]; rfl)
        · intro hmo
          have hrel : MemOKrel values values' := hmoc hmo
          obtain ⟨w, hw, hws⟩ := hhead name (by rw [ht]; rfl)
          exact ⟨hrel, hrel name w s hw hws⟩
      · exact absurd hloop resolveLoop_false_no_early
      · exact Or.inl ⟨e, rfl⟩
      · exact absurd hloop (resolveLoop_total hstb hpot)
    · -- fast path: already resolved
      refine Or.inr ⟨r, values, lookup_eq_memo hl hr, SameT.refl values, Frozen.rfl values,
        ⟨v, hl, hr⟩, fun hmo => ⟨hmo, hmo name v r hl hr⟩⟩

/-! ## Error freedom on expandable stores -/

/-- Invariant of a stack step while resolving inside an expandable
region of the graph. -/
def StepOK (values : Variables) (st : Step) : Prop :=
  ChainOK values st.referee st.chain ∧
  (∀ x ∈ st.varnames, Expandable values x) ∧
  (∀ b, st.referee = some b →
    ∃ vb, lookupV values b = some vb ∧
      ∀ x ∈ st.varnames, x ∈ varNamesList vb.template)

theorem ChainOK.none_elim {values : Variables} {ch : List (Option String)}
    (h : ChainOK values none ch) : ch = [] := by
  cases h
  rfl

theorem processNames_exp {values : Variables} {cc : List (Option String)} :
    ∀ {names : List String} {stack : List Step} {d : List String} {fi : Bool},
    (∀ x ∈ names, Expandable values x) →
    (∀ x ∈ names, ChainOK values (some x) cc) →
    (∀ st ∈ stack, StepOK values st) →
    (∀ e, processNames values cc names stack d fi ≠ PNOut.err e) ∧
    (∀ stack' d' fi', processNames values cc names stack d fi = PNOut.ok stack' d' fi' →
      ∀ st ∈ stack', StepOK values st) := by
  intro names
  induction names with
  | nil =>
    intro stack d fi hexp hchain hstk
    refine ⟨?_, ?_⟩
    · intro e h
      cases h
    · intro stack' d' fi' h
      simp only [processNames, PNOut.ok.injEq] at h
      rw [← h.1]
      exact hstk
  | cons x rest ih =>
    intro stack d fi hexp hchain hstk
    obtain ⟨v, hl, hdeps⟩ := (hexp x (List.mem_cons_self _ _)).elim'
    rcases hr : v.resolved with _ | r
    · have hstk' : ∀ st ∈ (if v.dependencies.isEmpty then stack
          else (⟨some x, v.dependencies, cc⟩ : Step) :: stack), StepOK values st := by
        intro st hst
        split at hst
        · exact hstk st hst
        · rcases List.mem_cons.mp hst with h1 | h1
          · subst h1
            refine ⟨hchain x (List.mem_cons_self _ _), ?_, ?_⟩
            · intro y hy
              apply hdeps
              have : v.dependencies = varNamesList v.template := by
                unfold Value.dependencies
                rw [hr]
              rw [← this]
              exact hy
            · intro b hb
              cases hb
              refine ⟨v, hl, ?_⟩
              intro y hy
              have : v.dependencies = varNamesList v.template := by
                unfold Value.dependencies
                rw [hr]
              rw [← this]
              exact hy
          · exact hstk st h1
      have hrec := @ih (if v.dependencies.isEmpty then stack
          else (⟨some x, v.dependencies, cc⟩ : Step) :: stack) (d ++ [x]) false
        (fun y hy => hexp y (List.mem_cons_of_mem _ hy))
        (fun y hy => hchain y (List.mem_cons_of_mem _ hy)) hstk'
      constructor
      · intro e h
        simp only [processNames, hl, hr] at h
        exact hrec.1 e h
      · intro stack' d' fi' h
        simp only [processNames, hl, hr] at h
        exact hrec.2 stack' d' fi' h
    · have hrec := @ih stack d false (fun y hy => hexp y (List.mem_cons_of_mem _ hy))
        (fun y hy => hchain y (List.mem_cons_of_mem _ hy)) hstk
      constructor
      · intro e h
        simp only [processNames, hl, hr] at h
        by_cases hfi : fi
        · rw [if_pos hfi] at h
          cases h
        · rw [if_neg hfi] at h
          exact hrec.1 e h
      · intro stack' d' fi' h
        simp only [processNames, hl, hr] at h
        by_cases hfi : fi
        · rw [if_pos hfi] at h
          cases h
        · rw [if_neg hfi] at h
          exact hrec.2 stack' d' fi' h

theorem resolveLoop_exp {values : Variables} :
    ∀ {fuel : Nat} {stack : List Step} {d : List String} {fi : Bool},
    (∀ st ∈ stack, StepOK values st) →
    ∀ {e : VError}, resolveLoop values fuel stack d fi ≠ LoopOut.err e := by
  intro fuel
  induction fuel with
  | zero => intro stack d fi _ e h; cases h
  | succ fuel ih =>
    intro stack d fi hstk e h
    match stack, h with
    | [], h => cases h
    | st :: stack, h =>
      obtain ⟨hch, hexp, href⟩ := hstk st (List.mem_cons_self _ _)
      unfold resolveLoop at h
      rw [if_neg (hch.not_mem)] at h
      have hchain : ∀ x ∈ st.varnames, ChainOK values (some x) (st.referee :: st.chain) := by
        intro x hx
        rcases hrefee : st.referee with _ | b
        · rw [hrefee] at hch
          rw [hch.none_elim]
          exact ChainOK.top (hexp x hx)
        · obtain ⟨vb, hlb, hsub⟩ := href b hrefee
          rw [hrefee] at hch
          exact ChainOK.deep hch ⟨vb, hlb, hsub x hx⟩ (hexp x hx)
      have hpn := @processNames_exp values (st.referee :: st.chain) st.varnames stack d fi
        hexp hchain (fun s hs => hstk s (List.mem_cons_of_mem _ hs))
      rcases hpns : processNames values (st.referee :: st.chain) st.varnames stack d fi
        with ⟨stack₁, d₁, fi₁⟩ | ⟨s'⟩ | ⟨e'⟩
      · rw [hpns] at h
        exact ih (hpn.2 stack₁ d₁ fi₁ hpns) h
      · rw [hpns] at h
        cases h
      · exact hpn.1 e' hpns

/-! ## Cycle detection on fresh stores -/

/-- All memos unset: the state of a store straight after construction. -/
def Fresh (values : Variables) : Prop :=
  ∀ k v, lookupV values k = some v → v.resolved = none

/-- Reachability along dependency edges. -/
def Reach (values : Variables) (n x : String) : Prop :=
  Relation.ReflTransGen (DepEdge values) n x

/-- A dependency cycle is reachable from `x`. -/
def CycReach (values : Variables) (x : String) : Prop :=
  ∃ c, Reach values x c ∧ Relation.TransGen (DepEdge values) c c

/-- Some step on the stack still has a pending name from which a cycle
is reachable. -/
def CycPending (values : Variables) (stack : List Step) : Prop :=
  ∃ st ∈ stack, ∃ x ∈ st.varnames, CycReach values x

theorem transGen_head_decomp {α : Type _} {r : α → α → Prop} {a b : α}
    (h : Relation.TransGen r a b) :
    ∃ c, r a c ∧ Relation.ReflTransGen r c b := by
  induction h using Relation.TransGen.head_induction_on with
  | base h => exact ⟨_, h, .refl⟩
  | ih h h2 _ => exact ⟨_, h, h2.to_reflTransGen⟩

theorem cycReach_step {values : Variables} {x : String} {v : Value}
    (h : CycReach values x) (hv : lookupV values x = some v)
    (hres : v.resolved = none) :
    ∃ y ∈ v.dependencies, CycReach values y := by
  have hdeps : v.dependencies = varNamesList v.template := by
    unfold Value.dependencies
    rw [hres]
  obtain ⟨c, hxc, hcc⟩ := h
  rcases hxc.cases_head with heq | ⟨y, hxy, hyc⟩
  · subst heq
    obtain ⟨y, hxy, hyx⟩ := transGen_head_decomp hcc
    obtain ⟨v', hv', hmem⟩ := hxy
    rw [hv] at hv'
    cases hv'
    refine ⟨y, by rw [hdeps]; exact hmem, x, hyx, hcc⟩
  · obtain ⟨v', hv', hmem⟩ := hxy
    rw [hv] at hv'
    cases hv'
    exact ⟨y, by rw [hdeps]; exact hmem, c, hyc, hcc⟩

theorem processNames_cyc {values : Variables} {cc : List (Option String)}
    (hfresh : Fresh values) :
    ∀ {names : List String} {stack : List Step} {d : List String} {fi : Bool}
      {stack' : List Step} {d' : List String} {fi' : Bool},
    processNames values cc names stack d fi = PNOut.ok stack' d' fi' →
    ((∃ x ∈ names, CycReach values x) ∨ CycPending values stack) →
    CycPending values stack' := by
  intro names
  induction names with
  | nil =>
    intro stack d fi stack' d' fi' h hw
    simp only [processNames, PNOut.ok.injEq] at h
    rw [← h.1]
    rcases hw with ⟨x, hx, _⟩ | hw
    · cases hx
    · exact hw
  | cons x rest ih =>
    intro stack d fi stack' d' fi' h hw
    rcases hl : lookupV values x with _ | v
    · simp only [processNames, hl] at h
      cases h
    · have hr : v.resolved = none := hfresh x v hl
      simp only [processNames, hl, hr] at h
      refine ih h ?_
      rcases hw with ⟨y, hy, hcy⟩ | hw
      · rcases List.mem_cons.mp hy with h1 | h1
        · rw [h1] at hcy
          obtain ⟨z, hz, hcz⟩ := cycReach_step hcy hl hr
          refine Or.inr ⟨⟨some x, v.dependencies, cc⟩, ?_, z, hz, hcz⟩
          have hne : ¬ v.dependencies.isEmpty := by
            intro hcon
            rw [List.isEmpty_iff] at hcon
            rw [hcon] at hz
            cases hz
          simp [hne]
        · exact Or.inl ⟨y, h1, hcy⟩
      · obtain ⟨st, hst, z, hz, hcz⟩ := hw
        refine Or.inr ⟨st, ?_, z, hz, hcz⟩
        split
        · exact hst
        · exact List.mem_cons_of_mem _ hst

theorem resolveLoop_cyc {values : Variables} (hfresh : Fresh values) :
    ∀ {fuel : Nat} {stack : List Step} {d : List String} {fi : Bool},
    CycPending values stack →
    ∀ {d' : List String}, resolveLoop values fuel stack d fi ≠ LoopOut.complete d' := by
  intro fuel
  induction fuel with
  | zero => intro stack d fi _ d' h; cases h
  | succ fuel ih =>
    intro stack d fi hcyc d' h
    match stack, hcyc, h with
    | [], hcyc, h =>
      obtain ⟨st, hst, _⟩ := hcyc
      cases hst
    | st :: stack, hcyc, h =>
      unfold resolveLoop at h
      by_cases hcirc : st.referee ∈ st.chain
      · rw [if_pos hcirc] at h
        cases h
      · rw [if_neg hcirc] at h
        rcases hpns : processNames values (st.referee :: st.chain) st.varnames stack d fi
          with ⟨stack₁, d₁, fi₁⟩ | ⟨s'⟩ | ⟨e'⟩
        · rw [hpns] at h
          refine ih (processNames_cyc hfresh hpns ?_) h
          obtain ⟨st', hst', x, hx, hcx⟩ := hcyc
          rcases List.mem_cons.mp hst' with h1 | h1
          · subst h1
            exact Or.inl ⟨x, hx, hcx⟩
          · exact Or.inr ⟨st', h1, x, hx, hcx⟩
        · rw [hpns] at h
          cases h
        · rw [hpns] at h
          cases h

/-- Parametric invariant: every pending name satisfies a predicate that
guarantees definedness and is closed under dependencies; then the loop
can never raise the undefined-variable error. -/
theorem processNames_G {values : Variables} {cc : List (Option String)}
    {G : String → Prop}
    (hGdef : ∀ x, G x → ∃ v, lookupV values x = some v)
    (hGcl : ∀ x v y, G x → lookupV values x = some v → y ∈ v.dependencies → G y) :
    ∀ {names : List String} {stack : List Step} {d : List String} {fi : Bool},
    (∀ x ∈ names, G x) →
    (∀ st ∈ stack, ∀ x ∈ st.varnames, G x) →
    (∀ e, processNames values cc names stack d fi ≠ PNOut.err e) ∧
    (∀ stack' d' fi', processNames values cc names stack d fi = PNOut.ok stack' d' fi' →
      ∀ st ∈ stack', ∀ x ∈ st.varnames, G x) := by
  intro names
  induction names with
  | nil =>
    intro stack d fi hn hstk
    refine ⟨?_, ?_⟩
    · intro e h
      cases h
    · intro stack' d' fi' h
      simp only [processNames, PNOut.ok.injEq] at h
      rw [← h.1]
      exact hstk
  | cons x rest ih =>
    intro stack d fi hn hstk
    obtain ⟨v, hl⟩ := hGdef x (hn x (List.mem_cons_self _ _))
    rcases hr : v.resolved with _ | r
    · have hstk' : ∀ st ∈ (if v.dependencies.isEmpty then stack
          else (⟨some x, v.dependencies, cc⟩ : Step) :: stack),
          ∀ y ∈ st.varnames, G y := by
        intro st hst
        split at hst
        · exact hstk st hst
        · rcases List.mem_cons.mp hst with h1 | h1
          · subst h1
            intro y hy
            exact hGcl x v y (hn x (List.mem_cons_self _ _)) hl hy
          · exact hstk st h1
      have hrec := @ih (if v.dependencies.isEmpty then stack
          else (⟨some x, v.dependencies, cc⟩ : Step) :: stack) (d ++ [x]) false
        (fun y hy => hn y (List.mem_cons_of_mem _ hy)) hstk'
      constructor
      · intro e h
        simp only [processNames, hl, hr] at h
        exact hrec.1 e h
      · intro stack' d' fi' h
        simp only [processNames, hl, hr] at h
        exact hrec.2 stack' d' fi' h
    · have hrec := @ih stack d false (fun y hy => hn y (List.mem_cons_of_mem _ hy)) hstk
      constructor
      · intro e h
        simp only [processNames, hl, hr] at h
        by_cases hfi : fi
        · rw [if_pos hfi] at h
          cases h
        · rw [if_neg hfi] at h
          exact hrec.1 e h
      · intro stack' d' fi' h
        simp only [processNames, hl, hr] at h
        by_cases hfi : fi
        · rw [if_pos hfi] at h
          cases h
        · rw [if_neg hfi] at h
          exact hrec.2 stack' d' fi' h

theorem resolveLoop_G {values : Variables} {G : String → Prop}
    (hGdef : ∀ x, G x → ∃ v, lookupV values x = some v)
    (hGcl : ∀ x v y, G x → lookupV values x = some v → y ∈ v.dependencies → G y) :
    ∀ {fuel : Nat} {stack : List Step} {d : List String} {fi : Bool},
    (∀ st ∈ stack, ∀ x ∈ st.varnames, G x) →
    ∀ {u : String}, resolveLoop values fuel stack d fi ≠ LoopOut.err (.undefinedVar u) := by
  intro fuel
  induction fuel with
  | zero => intro stack d fi _ u h; cases h
  | succ fuel ih =>
    intro stack d fi hstk u h
    match stack, h with
    | [], h => cases h
    | st :: stack, h =>
      unfold resolveLoop at h
      by_cases hcirc : st.referee ∈ st.chain
      · rw [if_pos hcirc] at h
        cases h
      · rw [if_neg hcirc] at h
        have hpn := @processNames_G values (st.referee :: st.chain) G hGdef hGcl
          st.varnames stack d fi (hstk st (List.mem_cons_self _ _))
          (fun s hs => hstk s (List.mem_cons_of_mem _ hs))
        rcases hpns : processNames values (st.referee :: st.chain) st.varnames stack d fi
          with ⟨stack₁, d₁, fi₁⟩ | ⟨s'⟩ | ⟨e'⟩
        · rw [hpns] at h
          exact ih (hpn.2 stack₁ d₁ fi₁ hpns) h
        · rw [hpns] at h
          cases h
        · rw [hpns] at h
          cases h
          exact hpn.1 _ hpns

/-! ## Support lemmas for the claims -/

theorem initial_stack_bound {values : Variables} {name : String} {v : Value}
    (hl : lookupV values name = some v) :
    ∀ st ∈ (if v.dependencies.isEmpty then []
      else [(⟨some name, v.dependencies, [none]⟩ : Step)]), StepBound values st := by
  intro st hst
  split at hst
  · cases hst
  · rw [List.mem_singleton] at hst
    subst hst
    refine ⟨dependencies_length_le hl, by simp, ?_, ?_⟩
    · intro o ho
      rw [List.mem_singleton] at ho
      subst ho
      exact Or.inl rfl
    · exact Or.inr ⟨name, rfl, by rw [hl]; rfl⟩

theorem initial_stack_pot (values : Variables) (name : String) (v : Value) :
    pot values (if v.dependencies.isEmpty then []
      else [(⟨some name, v.dependencies, [none]⟩ : Step)]) <
      (maxDeps values + 1) ^ (values.length + 2) := by
  have hone : 1 ≤ (maxDeps values + 1) ^ (values.length + 2) :=
    Nat.one_le_pow _ _ (by omega)
  split
  · simpa [pot] using hone
  · have hps : potStep values ⟨some name, v.dependencies, [none]⟩ =
        (maxDeps values + 1) ^ (values.length + 1) := by
      unfold potStep
      norm_num
    have hb1 : 1 < maxDeps values + 1 := by
      have := maxDeps_pos values
      omega
    have hlt : (maxDeps values + 1) ^ (values.length + 1) <
        (maxDeps values + 1) ^ (values.length + 2) :=
      Nat.pow_lt_pow_right hb1 (by omega)
    have hsum : pot values [(⟨some name, v.dependencies, [none]⟩ : Step)] =
        potStep values ⟨some name, v.dependencies, [none]⟩ := by
      simp [pot]
    rw [hsum, hps]
    exact hlt

theorem Res.expandable {values : Variables} :
    ∀ {a : String ⊕ List ValuePart} {s : String}, Res values a s →
    (∀ n, a = Sum.inl n → Expandable values n) ∧
    (∀ ps, a = Sum.inr ps → ∀ x, ValuePart.var x ∈ ps → Expandable values x) := by
  intro a s h
  induction h with
  | name hl hp ih =>
    refine ⟨?_, fun ps hps => by cases hps⟩
    intro n hn
    cases hn
    exact Expandable.mk hl fun x hx => ih.2 _ rfl x (mem_varNamesList.mp hx)
  | nil => exact ⟨fun n hn => (by cases hn), fun ps hps x hx => (by cases hps; cases hx)⟩
  | lit hrest ih =>
    refine ⟨fun n hn => (by cases hn), ?_⟩
    intro ps hps x hx
    cases hps
    rcases List.mem_cons.mp hx with h1 | h1
    · cases h1
    · exact ih.2 _ rfl x h1
  | var hx hrest ihx ihrest =>
    refine ⟨fun n hn => (by cases hn), ?_⟩
    intro ps hps y hy
    cases hps
    rcases List.mem_cons.mp hy with h1 | h1
    · cases h1
      exact ihx.1 _ rfl
    · exact ihrest.2 _ rfl y h1

theorem ResolvesTo.toExpandable {values : Variables} {n s : String}
    (h : ResolvesTo values n s) : Expandable values n :=
  (Res.expandable h).1 n rfl

theorem lookup_no_err {values : Variables} {name : String}
    (hexp : Expandable values name) :
    ∀ {e : VError} {values' : Variables},
    Variables.lookup values name ≠ RResult.err e values' := by
  obtain ⟨v, hl, hdeps⟩ := hexp.elim'
  intro e values' h
  rcases hr : v.resolved with _ | r
  · rw [lookup_eq_loop hl hr] at h
    have hdeq : v.dependencies = varNamesList v.template := by
      unfold Value.dependencies
      rw [hr]
    have hstk : ∀ st ∈ (if v.dependencies.isEmpty then []
        else [(⟨some name, v.dependencies, [none]⟩ : Step)]), StepOK values st := by
      intro st hst
      split at hst
      · cases hst
      · rw [List.mem_singleton] at hst
        subst hst
        refine ⟨ChainOK.top hexp, ?_, ?_⟩
        · intro x hx
          exact hdeps x (by rw [← hdeq]; exact hx)
        · intro b hb
          cases hb
          exact ⟨v, hl, fun x hx => by rw [← hdeq]; exact hx⟩
    rcases hloop : resolveLoop values ((maxDeps values + 1) ^ (values.length + 2))
        (if v.dependencies.isEmpty then []
         else [(⟨some name, v.dependencies, [none]⟩ : Step)])
        [name] false with ⟨d'⟩ | ⟨s'⟩ | ⟨e'⟩ | _
    · rw [hloop] at h
      rcases hfin : finalizeAux values d'.reverse none with _ | ⟨s, w⟩
      · simp only [hfin] at h
        cases h
      · simp only [hfin] at h
        cases h
    · rw [hloop] at h
      cases h
    · exact resolveLoop_exp hstk hloop
    · rw [hloop] at h
      cases h
  · rw [lookup_eq_memo hl hr] at h
    cases h

/-- The updated table a driver call makes visible to its caller; `none`
for the crash outcomes. -/
def RResult.outStore : RResult → Option Variables
  | RResult.ok _ w => some w
  | RResult.err _ w => some w
  | RResult.fault => none
  | RResult.outOfFuel => none

theorem lookup_frozen {values : Variables} {name : String} {w : Variables}
    (h : (Variables.lookup values name).outStore = some w) : Frozen values w := by
  rcases lookup_spec values name with ⟨e, heq⟩ | ⟨s, values', heq, hst, hfz, hmem, hmo⟩
  · rw [heq] at h
    simp [RResult.outStore] at h
    rw [← h]
    exact Frozen.rfl values
  · rw [heq] at h
    simp [RResult.outStore] at h
    rw [← h]
    exact hfz

theorem lookup_ok_elim {values : Variables} {name s : String} {values' : Variables}
    (h : Variables.lookup values name = RResult.ok s values') :
    SameT values values' ∧ Frozen values values' ∧
    (∃ w, lookupV values' name = some w ∧ w.resolved = some s) ∧
    (MemOK values → MemOK values' ∧ Res values (Sum.inl name) s) := by
  rcases lookup_spec values name with ⟨e, heq⟩ | ⟨s₀, w₀, heq, hst, hfz, hmem, hmo⟩
  · rw [h] at heq
    cases heq
  · rw [h] at heq
    injection heq with h1 h2
    subst h1 h2
    refine ⟨hst, hfz, hmem, fun hk => ?_⟩
    obtain ⟨hrel, hres⟩ := hmo hk
    refine ⟨?_, hres⟩
    intro k v r hl hr
    exact (hrel k v r hl hr).sameT hst

theorem lookup_err_elim {values : Variables} {name : String} {e : VError}
    {values' : Variables}
    (h : Variables.lookup values name = RResult.err e values') : values' = values := by
  rcases lookup_spec values name with ⟨e₀, heq⟩ | ⟨s₀, w₀, heq, _⟩
  · rw [h] at heq
    injection heq with h1 h2
  · rw [h] at heq
    cases heq

/-! ## Construction lemmas -/

theorem init_fresh (input : List (String × String)) (np : Bool) :
    Fresh (Variables.init input np) := by
  intro k v h
  have hmem := lookupV_mem h
  unfold Variables.init at hmem
  rw [List.mem_map] at hmem
  obtain ⟨p, _, hp⟩ := hmem
  cases hp
  rfl

theorem fresh_memOK {values : Variables} (h : Fresh values) : MemOK values := by
  intro k v r hl hr
  rw [h k v hl] at hr
  cases hr

/-- Assoc-list lookup on the raw string mapping. -/
def lookupS : List (String × String) → String → Option String
  | [], _ => none
  | p :: rest, k => if p.1 = k then some p.2 else lookupS rest k

theorem lookupV_toValues (l : List (String × String)) (k : String) :
    lookupV (l.map fun p => (p.1, { template := p.2, resolved := none })) k =
      (lookupS l k).map fun t => { template := t, resolved := none } := by
  induction l with
  | nil => rfl
  | cons p rest ih =>
    unfold lookupS
    simp only [List.map_cons, lookupV]
    by_cases hp : p.1 = k
    · simp [hp]
    · simp [hp, ih]

theorem lookupS_not_mem {l : List (String × String)} {k : String}
    (h : ¬ l.any fun p => p.1 = k) : lookupS l k = none := by
  induction l with
  | nil => rfl
  | cons p rest ih =>
    unfold lookupS
    simp only [List.any_cons, Bool.or_eq_true, decide_eq_true_eq, not_or] at h
    rw [if_neg h.1]
    exact ih (by simpa using h.2)

theorem lookupS_mem_ne_none {l : List (String × String)} {p : String × String}
    {k : String} (hp : p ∈ l) (hpk : p.1 = k) : lookupS l k ≠ none := by
  induction l with
  | nil => cases hp
  | cons q rest ih =>
    simp only [lookupS]
    rcases List.mem_cons.mp hp with h1 | h1
    · subst h1
      rw [if_pos hpk]
      simp
    · split
      · simp
      · exact ih h1

theorem lookupS_append (l₁ l₂ : List (String × String)) (k : String)
    (h : lookupS l₁ k = none) : lookupS (l₁ ++ l₂) k = lookupS l₂ k := by
  induction l₁ with
  | nil => rfl
  | cons p rest ih =>
    simp only [lookupS] at h
    split at h
    · cases h
    · next hc =>
      simp only [List.cons_append, lookupS, if_neg hc]
      exact ih h

theorem lookupS_overwrite (l : List (String × String)) (k v : String) :
    lookupS (l.map fun p => if p.1 = k then (k, v) else p) k =
      (lookupS l k).map fun _ => v := by
  induction l with
  | nil => rfl
  | cons p rest ih =>
    by_cases hp : p.1 = k
    · simp [lookupS, hp]
    · simp only [List.map_cons, if_neg hp]
      simp only [lookupS, if_neg hp]
      exact ih

theorem lookupS_setKey (l : List (String × String)) (k v : String) :
    lookupS (Variables.init.setKeyString l k v) k = some v := by
  unfold Variables.init.setKeyString
  split
  next hany =>
    rw [lookupS_overwrite]
    rcases hl : lookupS l k with _ | t
    · exfalso
      obtain ⟨p, hp, hpk⟩ := List.any_eq_true.mp hany
      simp only [decide_eq_true_eq] at hpk
      exact lookupS_mem_ne_none hp hpk hl
    · rfl
  next hany =>
    rw [lookupS_append _ _ _ (lookupS_not_mem hany)]
    simp [lookupS]

theorem init_max_jobs (input : List (String × String)) :
    lookupV (Variables.init input true) "max-jobs" =
      some { template := "1", resolved := none } := by
  unfold Variables.init
  simp only [if_true]
  rw [lookupV_toValues, lookupS_setKey]
  rfl

/-! ## Literal (dependency-free) resolution -/

theorem resolveParts_all_literal (values : Variables) :
    ∀ {ps : List ValuePart}, (∀ x, ValuePart.var x ∉ ps) →
    resolveParts values ps = some (renderParts ps) := by
  intro ps
  induction ps with
  | nil => intro _; rfl
  | cons p rest ih =>
    intro h
    cases p with
    | literal t =>
      have : resolveParts values rest = some (renderParts rest) :=
        ih fun x hx => h x (List.mem_cons_of_mem _ hx)
      simp [resolveParts, this]
      rfl
    | var x => exact absurd (List.mem_cons_self _ _) (h x)

theorem varNamesList_no_var {s : String} (h : varNamesList s = []) :
    ∀ x, ValuePart.var x ∉ parseString s := by
  intro x hx
  have : x ∈ varNamesList s := mem_varNamesList.mpr hx
  rw [h] at this
  cases this

/-- Resolving a variable bound to a dependency-free template returns the
raw template text verbatim. -/
theorem lookup_literal {values : Variables} {n s : String}
    (hl : lookupV values n = some { template := s, resolved := none })
    (hnm : varNamesList s = []) :
    Variables.lookup values n =
      RResult.ok s (setV values n { template := s, resolved := some s }) := by
  have hdeps : ({ template := s, resolved := none } : Value).dependencies = [] := by
    unfold Value.dependencies
    simpa using hnm
  rw [lookup_eq_loop hl rfl]
  rw [hdeps]
  simp only [List.isEmpty_nil, if_true]
  obtain ⟨f, hf⟩ : ∃ f, (maxDeps values + 1) ^ (values.length + 2) = f + 1 := by
    have : 1 ≤ (maxDeps values + 1) ^ (values.length + 2) :=
      Nat.one_le_pow _ _ (by omega)
    exact ⟨(maxDeps values + 1) ^ (values.length + 2) - 1, by omega⟩
  rw [hf]
  have hres : resolveParts values (parseString s) = some s := by
    rw [resolveParts_all_literal values (varNamesList_no_var hnm)]
    rw [parseString_render s]
  show (match finalizeAux values [n].reverse none with
    | some (s, values') => RResult.ok s values'
    | none => RResult.fault) =
    RResult.ok s (setV values n { template := s, resolved := some s })
  have hfin : finalizeAux values [n].reverse none =
      some (s, setV values n { template := s, resolved := some s }) := by
    show finalizeAux values [n] none = _
    simp only [finalizeAux, hl]
    unfold Value.resolve
    simp only [hres]
  rw [hfin]

/-! ## Operation-level lemmas -/

/-- The table a `get` call leaves behind. -/
def GetOut.outStore : GetOut → Option Variables
  | GetOut.val _ w => some w
  | GetOut.fault => none
  | GetOut.outOfFuel => none

/-- The table a bulk resolution leaves behind. -/
def BulkOut.outStore : BulkOut → Option Variables
  | BulkOut.ok w => some w
  | BulkOut.err _ w => some w
  | BulkOut.fault => none
  | BulkOut.outOfFuel => none

/-- The table an iteration leaves behind. -/
def IterOut.outStore : IterOut → Option Variables
  | IterOut.ok _ w => some w
  | IterOut.err _ w => some w
  | IterOut.fault => none
  | IterOut.outOfFuel => none

/-- The table an expansion leaves behind. -/
def ExpandOut.outStore : ExpandOut → Option Variables
  | ExpandOut.ok _ w => some w
  | ExpandOut.err _ w => some w
  | ExpandOut.fault => none
  | ExpandOut.outOfFuel => none

/-- The table a sequence expansion leaves behind. -/
def ExpandListOut.outStore : ExpandListOut → Option Variables
  | ExpandListOut.ok _ w => some w
  | ExpandListOut.err _ w => some w
  | ExpandListOut.fault => none
  | ExpandListOut.outOfFuel => none

/-- The table a mapping expansion leaves behind. -/
def ExpandMapOut.outStore : ExpandMapOut → Option Variables
  | ExpandMapOut.ok _ w => some w
  | ExpandMapOut.err _ w => some w
  | ExpandMapOut.fault => none
  | ExpandMapOut.outOfFuel => none

theorem get_frozen {values : Variables} {name : String} {w : Variables}
    (h : (Variables.get values name).outStore = some w) : Frozen values w := by
  unfold Variables.get at h
  rcases hlk : Variables.lookup values name with ⟨s, w'⟩ | ⟨e, w'⟩ | _ | _
  · simp only [hlk, GetOut.outStore, Option.some.injEq] at h
    rw [← h]
    exact lookup_frozen (by rw [hlk]; rfl)
  · rcases e with u | r
    · simp only [hlk, GetOut.outStore, Option.some.injEq] at h
      rw [← h]
      exact lookup_frozen (by rw [hlk]; rfl)
    · simp only [hlk, GetOut.outStore, Option.some.injEq] at h
      rw [← h]
      exact lookup_frozen (by rw [hlk]; rfl)
  · simp [hlk, GetOut.outStore] at h
  · simp [hlk, GetOut.outStore] at h

theorem substDeps_frozen :
    ∀ (deps : List String) (values : Variables) (text : String) (w : Variables),
    (Variables.subst.substDeps values deps text).outStore = some w → Frozen values w := by
  intro deps
  induction deps with
  | nil =>
    intro values text w h
    unfold Variables.subst.substDeps at h
    rcases hres : resolveParts values (parseString text) with _ | s
    · simp [hres, RResult.outStore] at h
    · simp only [hres, RResult.outStore, Option.some.injEq] at h
      rw [← h]
      exact Frozen.rfl values
  | cons x rest ih =>
    intro values text w h
    unfold Variables.subst.substDeps at h
    rcases hlk : Variables.lookup values x with ⟨s, w'⟩ | ⟨e, w'⟩ | _ | _
    · simp only [hlk] at h
      have h1 : Frozen values w' := lookup_frozen (by rw [hlk]; rfl)
      exact h1.trans (ih w' text w h)
    · simp only [hlk, RResult.outStore, Option.some.injEq] at h
      rw [← h]
      exact lookup_frozen (by rw [hlk]; rfl)
    · simp [hlk, RResult.outStore] at h
    · simp [hlk, RResult.outStore] at h

theorem subst_frozen {values : Variables} {text : String} {w : Variables}
    (h : (Variables.subst values text).outStore = some w) : Frozen values w := by
  unfold Variables.subst at h
  exact substDeps_frozen _ values text w h

theorem resolveNameList_frozen :
    ∀ (names : List String) (values : Variables) (w : Variables),
    (resolveNameList values names).outStore = some w → Frozen values w := by
  intro names
  induction names with
  | nil =>
    intro values w h
    simp only [resolveNameList, BulkOut.outStore, Option.some.injEq] at h
    rw [← h]
    exact Frozen.rfl values
  | cons x rest ih =>
    intro values w h
    unfold resolveNameList at h
    rcases hlk : Variables.lookup values x with ⟨s, w'⟩ | ⟨e, w'⟩ | _ | _
    · simp only [hlk] at h
      have h1 : Frozen values w' := lookup_frozen (by rw [hlk]; rfl)
      exact h1.trans (ih w' w h)
    · simp only [hlk, BulkOut.outStore, Option.some.injEq] at h
      rw [← h]
      exact lookup_frozen (by rw [hlk]; rfl)
    · simp [hlk, BulkOut.outStore] at h
    · simp [hlk, BulkOut.outStore] at h

theorem check_frozen {values : Variables} {w : Variables}
    (h : (Variables.check values).outStore = some w) : Frozen values w :=
  resolveNameList_frozen _ values w h

theorem iterateNames_frozen :
    ∀ (names : List String) (values : Variables) (w : Variables),
    (iterateNames values names).outStore = some w → Frozen values w := by
  intro names
  induction names with
  | nil =>
    intro values w h
    simp only [iterateNames, IterOut.outStore, Option.some.injEq] at h
    rw [← h]
    exact Frozen.rfl values
  | cons x rest ih =>
    intro values w h
    unfold iterateNames at h
    rcases hlk : Variables.lookup values x with ⟨s, w'⟩ | ⟨e, w'⟩ | _ | _
    · simp only [hlk] at h
      have h1 : Frozen values w' := lookup_frozen (by rw [hlk]; rfl)
      rcases hit : iterateNames w' rest with ⟨ps, w''⟩ | ⟨e, w''⟩ | _ | _
      · simp only [hit, IterOut.outStore, Option.some.injEq] at h
        rw [← h]
        exact h1.trans (ih w' w'' (by rw [hit]; rfl))
      · simp only [hit, IterOut.outStore, Option.some.injEq] at h
        rw [← h]
        exact h1.trans (ih w' w'' (by rw [hit]; rfl))
      · simp [hit, IterOut.outStore] at h
      · simp [hit, IterOut.outStore] at h
    · simp only [hlk, IterOut.outStore, Option.some.injEq] at h
      rw [← h]
      exact lookup_frozen (by rw [hlk]; rfl)
    · simp [hlk, IterOut.outStore] at h
    · simp [hlk, IterOut.outStore] at h

theorem iterate_frozen {values : Variables} {w : Variables}
    (h : (Variables.iterateAll values).outStore = some w) : Frozen values w :=
  iterateNames_frozen _ values w h

mutual

theorem expand_frozen : ∀ (values : Variables) (node : Node) (w : Variables),
    (Variables.expand values node).outStore = some w → Frozen values w := by
  intro values node w h
  cases node with
  | scalar text =>
    unfold Variables.expand at h
    rcases hs : Variables.subst values text with ⟨s, w'⟩ | ⟨e, w'⟩ | _ | _
    · simp only [hs, ExpandOut.outStore, Option.some.injEq] at h
      rw [← h]
      exact subst_frozen (by rw [hs]; rfl)
    · simp only [hs, ExpandOut.outStore, Option.some.injEq] at h
      rw [← h]
      exact subst_frozen (by rw [hs]; rfl)
    · simp [hs, ExpandOut.outStore] at h
    · simp [hs, ExpandOut.outStore] at h
  | sequence children =>
    unfold Variables.expand at h
    rcases hs : Variables.expandSeq values children with ⟨l, w'⟩ | ⟨e, w'⟩ | _ | _
    · simp only [hs, ExpandOut.outStore, Option.some.injEq] at h
      rw [← h]
      exact expandSeq_frozen values children w' (by rw [hs]; rfl)
    · simp only [hs, ExpandOut.outStore, Option.some.injEq] at h
      rw [← h]
      exact expandSeq_frozen values children w' (by rw [hs]; rfl)
    · simp [hs, ExpandOut.outStore] at h
    · simp [hs, ExpandOut.outStore] at h
  | mapping entries =>
    unfold Variables.expand at h
    rcases hs : Variables.expandMap values entries with ⟨l, w'⟩ | ⟨e, w'⟩ | _ | _
    · simp only [hs, ExpandOut.outStore, Option.some.injEq] at h
      rw [← h]
      exact expandMap_frozen values entries w' (by rw [hs]; rfl)
    · simp only [hs, ExpandOut.outStore, Option.some.injEq] at h
      rw [← h]
      exact expandMap_frozen values entries w' (by rw [hs]; rfl)
    · simp [hs, ExpandOut.outStore] at h
    · simp [hs, ExpandOut.outStore] at h

theorem expandSeq_frozen : ∀ (values : Variables) (children : List Node) (w : Variables),
    (Variables.expandSeq values children).outStore = some w → Frozen values w := by
  intro values children w h
  cases children with
  | nil =>
    simp only [Variables.expandSeq, ExpandListOut.outStore, Option.some.injEq] at h
    rw [← h]
    exact Frozen.rfl values
  | cons n rest =>
    unfold Variables.expandSeq at h
    rcases hn : Variables.expand values n with ⟨n', w'⟩ | ⟨e, w'⟩ | _ | _
    · simp only [hn] at h
      have h1 : Frozen values w' := expand_frozen values n w' (by rw [hn]; rfl)
      rcases hr : Variables.expandSeq w' rest with ⟨l, w''⟩ | ⟨e, w''⟩ | _ | _
      · simp only [hr, ExpandListOut.outStore, Option.some.injEq] at h
        rw [← h]
        exact h1.trans (expandSeq_frozen w' rest w'' (by rw [hr]; rfl))
      · simp only [hr, ExpandListOut.outStore, Option.some.injEq] at h
        rw [← h]
        exact h1.trans (expandSeq_frozen w' rest w'' (by rw [hr]; rfl))
      · simp [hr, ExpandListOut.outStore] at h
      · simp [hr, ExpandListOut.outStore] at h
    · simp only [hn, ExpandListOut.outStore, Option.some.injEq] at h
      rw [← h]
      exact expand_frozen values n w' (by rw [hn]; rfl)
    · simp [hn, ExpandListOut.outStore] at h
    · simp [hn, ExpandListOut.outStore] at h

theorem expandMap_frozen : ∀ (values : Variables) (entries : List (String × Node))
    (w : Variables),
    (Variables.expandMap values entries).outStore = some w → Frozen values w := by
  intro values entries w h
  cases entries with
  | nil =>
    simp only [Variables.expandMap, ExpandMapOut.outStore, Option.some.injEq] at h
    rw [← h]
    exact Frozen.rfl values
  | cons p rest =>
    unfold Variables.expandMap at h
    rcases hn : Variables.expand values p.2 with ⟨n', w'⟩ | ⟨e, w'⟩ | _ | _
    · simp only [hn] at h
      have h1 : Frozen values w' := expand_frozen values p.2 w' (by rw [hn]; rfl)
      rcases hr : Variables.expandMap w' rest with ⟨l, w''⟩ | ⟨e, w''⟩ | _ | _
      · simp only [hr, ExpandMapOut.outStore, Option.some.injEq] at h
        rw [← h]
        exact h1.trans (expandMap_frozen w' rest w'' (by rw [hr]; rfl))
      · simp only [hr, ExpandMapOut.outStore, Option.some.injEq] at h
        rw [← h]
        exact h1.trans (expandMap_frozen w' rest w'' (by rw [hr]; rfl))
      · simp [hr, ExpandMapOut.outStore] at h
      · simp [hr, ExpandMapOut.outStore] at h
    · simp only [hn, ExpandMapOut.outStore, Option.some.injEq] at h
      rw [← h]
      exact expand_frozen values p.2 w' (by rw [hn]; rfl)
    · simp [hn, ExpandMapOut.outStore] at h
    · simp [hn, ExpandMapOut.outStore] at h

end

/-! ## Soundness of substitution and in-place expansion -/

theorem SameT.symm {w w' : Variables} (h : SameT w w') : SameT w' w :=
  fun k => (h k).symm

theorem substDeps_sound :
    ∀ (deps : List String) (values : Variables) (text s : String) (values' : Variables),
    MemOK values →
    Variables.subst.substDeps values deps text = RResult.ok s values' →
    MemOK values' ∧ SameT values values' ∧ Frozen values values' ∧
      resolveParts values' (parseString text) = some s := by
  intro deps
  induction deps with
  | nil =>
    intro values text s values' hmo h
    unfold Variables.subst.substDeps at h
    rcases hres : resolveParts values (parseString text) with _ | s₀
    · simp [hres] at h
    · simp only [hres, RResult.ok.injEq] at h
      obtain ⟨h1, h2⟩ := h
      subst h1 h2
      exact ⟨hmo, SameT.refl values, Frozen.rfl values, hres⟩
  | cons x rest ih =>
    intro values text s values' hmo h
    unfold Variables.subst.substDeps at h
    rcases hlk : Variables.lookup values x with ⟨s₀, w₀⟩ | ⟨e, w₀⟩ | _ | _
    · simp only [hlk] at h
      obtain ⟨hst, hfz, hmem, hmok⟩ := lookup_ok_elim hlk
      obtain ⟨hmo₀, _⟩ := hmok hmo
      obtain ⟨hmo', hst', hfz', hres⟩ := ih w₀ text s values' hmo₀ h
      exact ⟨hmo', hst.comp hst', hfz.trans hfz', hres⟩
    · simp [hlk] at h
    · simp [hlk] at h
    · simp [hlk] at h

/-- A successful `subst` call: the returned string is the reference
expansion of the ad hoc template, and the table only gains memos. -/
theorem subst_sound {values : Variables} {text s : String} {values' : Variables}
    (hmo : MemOK values)
    (h : Variables.subst values text = RResult.ok s values') :
    Res values (Sum.inr (parseString text)) s ∧
      MemOK values' ∧ SameT values values' ∧ Frozen values values' := by
  unfold Variables.subst at h
  obtain ⟨hmo', hst, hfz, hres⟩ := substDeps_sound _ values text s values' hmo h
  have hr : Res values' (Sum.inr (parseString text)) s :=
    resolveParts_res hmo' hres
  exact ⟨hr.sameT hst.symm, hmo', hst, hfz⟩

/-- The in-place expansion relation: the output tree has exactly the
input's shape (same node kinds, same sibling order, same mapping keys),
and each scalar leaf's text has been replaced by its substituted value
under the reference semantics of the table.  Mapping entries are relared
through their key list and their value list so that only the scalar
leaves change. -/
inductive ExpandedFrom (values : Variables) : Node → Node → Prop where
  | scalar {s t : String} :
      Res values (Sum.inr (parseString s)) t →
      ExpandedFrom values (Node.scalar s) (Node.scalar t)
  | sequence {l l' : List Node} :
      List.Forall₂ (ExpandedFrom values) l l' →
      ExpandedFrom values (Node.sequence l) (Node.sequence l')
  | mapping {es es' : List (String × Node)} :
      es.map Prod.fst = es'.map Prod.fst →
      List.Forall₂ (ExpandedFrom values) (es.map Prod.snd) (es'.map Prod.snd) →
      ExpandedFrom values (Node.mapping es) (Node.mapping es')

mutual

theorem expand_sound : ∀ (base values : Variables) (node : Node) (node' : Node)
    (values' : Variables), MemOK values → SameT base values →
    Variables.expand values node = ExpandOut.ok node' values' →
    ExpandedFrom base node node' ∧ MemOK values' ∧ SameT base values' := by
  intro base values node node' values' hmo hbase h
  cases node with
  | scalar text =>
    unfold Variables.expand at h
    rcases hs : Variables.subst values text with ⟨s, w'⟩ | ⟨e, w'⟩ | _ | _
    · simp only [hs, ExpandOut.ok.injEq] at h
      obtain ⟨h1, h2⟩ := h
      subst h1 h2
      obtain ⟨hr, hmo', hst, _⟩ := subst_sound hmo hs
      exact ⟨ExpandedFrom.scalar (hr.sameT hbase.symm), hmo', hbase.comp hst⟩
    · simp [hs] at h
    · simp [hs] at h
    · simp [hs] at h
  | sequence children =>
    unfold Variables.expand at h
    rcases hs : Variables.expandSeq values children with ⟨l, w'⟩ | ⟨e, w'⟩ | _ | _
    · simp only [hs, ExpandOut.ok.injEq] at h
      obtain ⟨h1, h2⟩ := h
      subst h1 h2
      obtain ⟨hf, hmo', hst⟩ := expandSeq_sound base values children l w' hmo hbase hs
      exact ⟨ExpandedFrom.sequence hf, hmo', hst⟩
    · simp [hs] at h
    · simp [hs] at h
    · simp [hs] at h
  | mapping entries =>
    unfold Variables.expand at h
    rcases hs : Variables.expandMap values entries with ⟨l, w'⟩ | ⟨e, w'⟩ | _ | _
    · simp only [hs, ExpandOut.ok.injEq] at h
      obtain ⟨h1, h2⟩ := h
      subst h1 h2
      obtain ⟨hk, hf, hmo', hst⟩ := expandMap_sound base values entries l w' hmo hbase hs
      exact ⟨ExpandedFrom.mapping hk hf, hmo', hst⟩
    · simp [hs] at h
    · simp [hs] at h
    · simp [hs] at h

theorem expandSeq_sound : ∀ (base values : Variables)
    (children children' : List Node)
    (values' : Variables), MemOK values → SameT base values →
    Variables.expandSeq values children = ExpandListOut.ok children' values' →
    List.Forall₂ (ExpandedFrom base) children children' ∧
      MemOK values' ∧ SameT base values' := by
  intro base values children children' values' hmo hbase h
  cases children with
  | nil =>
    simp only [Variables.expandSeq, ExpandListOut.ok.injEq] at h
    obtain ⟨h1, h2⟩ := h
    subst h1 h2
    exact ⟨List.Forall₂.nil, hmo, hbase⟩
  | cons n rest =>
    unfold Variables.expandSeq at h
    rcases hn : Variables.expand values n with ⟨n', w'⟩ | ⟨e, w'⟩ | _ | _
    · simp only [hn] at h
      rcases hr : Variables.expandSeq w' rest with ⟨l, w''⟩ | ⟨e, w''⟩ | _ | _
      · simp only [hr, ExpandListOut.ok.injEq] at h
        obtain ⟨h1, h2⟩ := h
        subst h1 h2
        obtain ⟨hf1, hmo', hst'⟩ := expand_sound base values n n' w' hmo hbase hn
        obtain ⟨hf2, hmo'', hst''⟩ := expandSeq_sound base w' rest l w'' hmo' hst' hr
        exact ⟨List.Forall₂.cons hf1 hf2, hmo'', hst''⟩
      · simp [hr] at h
      · simp [hr] at h
      · simp [hr] at h
    · simp [hn] at h
    · simp [hn] at h
    · simp [hn] at h

theorem expandMap_sound : ∀ (base values : Variables)
    (entries entries' : List (String × Node))
    (values' : Variables), MemOK values → SameT base values →
    Variables.expandMap values entries = ExpandMapOut.ok entries' values' →
    entries.map Prod.fst = entries'.map Prod.fst ∧
      List.Forall₂ (ExpandedFrom base) (entries.map Prod.snd) (entries'.map Prod.snd) ∧
      MemOK values' ∧ SameT base values' := by
  intro base values entries entries' values' hmo hbase h
  cases entries with
  | nil =>
    simp only [Variables.expandMap, ExpandMapOut.ok.injEq] at h
    obtain ⟨h1, h2⟩ := h
    subst h1 h2
    exact ⟨rfl, List.Forall₂.nil, hmo, hbase⟩
  | cons p rest =>
    unfold Variables.expandMap at h
    rcases hn : Variables.expand values p.2 with ⟨n', w'⟩ | ⟨e, w'⟩ | _ | _
    · simp only [hn] at h
      rcases hr : Variables.expandMap w' rest with ⟨l, w''⟩ | ⟨e, w''⟩ | _ | _
      · simp only [hr, ExpandMapOut.ok.injEq] at h
        obtain ⟨h1, h2⟩ := h
        subst h1 h2
        obtain ⟨hf1, hmo', hst'⟩ := expand_sound base values p.2 n' w' hmo hbase hn
        obtain ⟨hk, hf2, hmo'', hst''⟩ := expandMap_sound base w' rest l w'' hmo' hst' hr
        refine ⟨by simp [hk], ?_, hmo'', hst''⟩
        simp only [List.map_cons]
        exact List.Forall₂.cons hf1 hf2
      · simp [hr] at h
      · simp [hr] at h
      · simp [hr] at h
    · simp [hn] at h
    · simp [hn] at h
    · simp [hn] at h

end

/-! ## Concrete stores and documents used by the claims -/

/-- A two-variable reference cycle: `a = "%{b}"`, `b = "%{a}"`. -/
def cycStore : Variables := Variables.init [("a", "%{b}"), ("b", "%{a}")] false

/-- The self-referential store `a = "%{a}"`. -/
def selfStore : Variables := Variables.init [("a", "%{a}")] false

/-- A second two-variable reference cycle on distinct names. -/
def cyc2Store : Variables := Variables.init [("p", "%{q}"), ("q", "%{p}")] false

/-- The store `base = "hello"`, `greet = "%{base} world"`. -/
def demoStore : Variables := Variables.init [("base", "hello"), ("greet", "%{base} world")] false

/-- The same two-variable store, kept separate for the expansion demo. -/
def expandStore : Variables :=
  Variables.init [("base", "hello"), ("greet", "%{base} world")] false

/-- A store in which the memo of `m` is already set. -/
def memoStore : Variables :=
  [("m", ⟨"hi", some "hi"⟩), ("u", ⟨"%{m}!", none⟩)]

/-- A store holding one placeholder-free template with two malformed
references, bound to the name `lit`. -/
def c10store : Variables :=
  [("lit", ⟨"plain %\x7b1bad\x7d %\x7b\x7d text", none⟩)]

/-- A small document tree: a mapping holding a scalar and a sequence. -/
def demoNode : Node :=
  Node.mapping [("k", Node.scalar "%{greet}!"), ("l", Node.sequence [Node.scalar "%{base}"])]

/-- What in-place expansion of `demoNode` over `expandStore` produces. -/
def demoNodeExpanded : Node :=
  Node.mapping [("k", Node.scalar "hello world!"), ("l", Node.sequence [Node.scalar "hello"])]

/-! ## The claims -/

/-- C1: the claim says `get` returns the absent marker when the variable is
undefined while a circular-reference failure still propagates out of `get`
as an error.  The code does return the absent marker for an undefined
variable (third and fourth conjuncts), but its `except LoadError` block
only tests `e.reason == LoadErrorReason.UNRESOLVED_VARIABLE` and contains
no `raise`: when the reason is the circular-reference one, control falls
off the end of the function, so `get` swallows the circular-reference
error and returns the absent marker as well.  On the cyclic store
`a = "%\x7bb\x7d"`, `b = "%\x7ba\x7d"` the driver fails with a
circular-reference error (first conjunct), yet `get` yields `none` with
the store unchanged (second conjunct) — contradicting the claim. -/
theorem get_suppresses_circular_error :
    Variables.lookup cycStore "a" = RResult.err (VError.circularRef (some "a")) cycStore ∧
    Variables.get cycStore "a" = GetOut.val none cycStore ∧
    Variables.lookup cycStore "missing" = RResult.err (VError.undefinedVar "missing") cycStore ∧
    Variables.get cycStore "missing" = GetOut.val none cycStore :=
  ⟨rfl, rfl, rfl, rfl⟩

/-- C2: over a store whose memos are sound (`MemOK`, trivially true of a
freshly parsed store) and a name that fully expands to `s` under the
reference semantics (`ResolvesTo`, which replaces every placeholder of the
template, in order, by the full expansion of the referenced variable —
such an expansion exists exactly when the reachable dependency graph is
acyclic and every referenced name is defined, by `Expandable.exists_res`
and `ResolvesTo.toExpandable`), the driver returns exactly `s`, and `s` is
the unique full expansion. -/
theorem lookup_computes_full_expansion (values : Variables) (name s : String)
    (hmo : MemOK values) (hres : ResolvesTo values name s) :
    (∃ values', Variables.lookup values name = RResult.ok s values') ∧
    ∀ s', ResolvesTo values name s' → s' = s := by
  have hexp : Expandable values name := hres.toExpandable
  refine ⟨?_, fun s' h' => Res.deterministic h' hres⟩
  rcases lookup_spec values name with ⟨e, h⟩ | ⟨s₀, w₀, h, hst, hfz, hmem, hmo'⟩
  · exact absurd h (lookup_no_err hexp)
  · obtain ⟨_, hr⟩ := hmo' hmo
    have hs : s₀ = s := hr.deterministic hres
    rw [← hs]
    exact ⟨w₀, h⟩

/-- C2 witness: on `base = "hello"`, `greet = "%\x7bbase\x7d world"`,
resolving `greet` yields exactly `"hello world"`. -/
theorem lookup_computes_full_expansion_witness :
    MemOK demoStore ∧ ResolvesTo demoStore "greet" "hello world" ∧
    ∃ values', Variables.lookup demoStore "greet" = RResult.ok "hello world" values' := by
  have hmo : MemOK demoStore :=
    fresh_memOK (init_fresh [("base", "hello"), ("greet", "%{base} world")] false)
  have hbaseparts : Res demoStore (Sum.inr (parseString "hello")) "hello" := by
    have hp : parseString "hello" = [ValuePart.literal "hello"] := rfl
    have he : ("hello" ++ "" : String) = "hello" := rfl
    rw [hp, ← he]
    exact Res.lit Res.nil
  have hbase : Res demoStore (Sum.inl "base") "hello" :=
    Res.name (v := ⟨"hello", none⟩) rfl hbaseparts
  have hparts : Res demoStore (Sum.inr (parseString "%{base} world")) "hello world" := by
    have hp : parseString "%{base} world" =
        [ValuePart.var "base", ValuePart.literal " world"] := rfl
    have he : ("hello" ++ (" world" ++ "") : String) = "hello world" := rfl
    rw [hp, ← he]
    exact Res.var hbase (Res.lit Res.nil)
  have hg : ResolvesTo demoStore "greet" "hello world" :=
    Res.name (v := ⟨"%{base} world", none⟩) rfl hparts
  exact ⟨hmo, hg, (lookup_computes_full_expansion demoStore "greet" "hello world" hmo hg).1⟩

/-- C3: over any fresh store (no memo set yet, as after parsing) in which
every name reachable from the requested one is defined and a dependency
cycle is reachable from the requested name — which covers the
self-reference `a = "%\x7ba\x7d"` and the two-cycle — the driver
terminates with a circular-reference error: it does not diverge (the
result is an actual constructor, not the fuel-exhaustion marker), and it
does not return a resolved string. -/
theorem circular_chain_raises (values : Variables) (name : String)
    (hfresh : Fresh values)
    (hdef : ∀ x, Reach values name x → ∃ v, lookupV values x = some v)
    (hcyc : CycReach values name) :
    ∃ r values', Variables.lookup values name = RResult.err (VError.circularRef r) values' := by
  obtain ⟨v, hl⟩ := hdef name Relation.ReflTransGen.refl
  have hr : v.resolved = none := hfresh name v hl
  have hdeq : v.dependencies = varNamesList v.template := by
    unfold Value.dependencies
    rw [hr]
  obtain ⟨y, hy, hcy⟩ := cycReach_step hcyc hl hr
  have hne : v.dependencies.isEmpty = false := by
    cases hd : v.dependencies with
    | nil => rw [hd] at hy; cases hy
    | cons a l => rfl
  have hstack : (if v.dependencies.isEmpty then ([] : List Step)
      else [(⟨some name, v.dependencies, [none]⟩ : Step)]) =
      [(⟨some name, v.dependencies, [none]⟩ : Step)] := by
    rw [hne]
    rfl
  have hbnd := initial_stack_bound hl
  rw [hstack] at hbnd
  have hpot := initial_stack_pot values name v
  rw [hstack] at hpot
  have hcpend : CycPending values [(⟨some name, v.dependencies, [none]⟩ : Step)] :=
    ⟨⟨some name, v.dependencies, [none]⟩, List.mem_singleton_self _, y, hy, hcy⟩
  rw [lookup_eq_loop hl hr, hstack]
  rcases hloop : resolveLoop values ((maxDeps values + 1) ^ (values.length + 2))
      [(⟨some name, v.dependencies, [none]⟩ : Step)] [name] false
    with ⟨d'⟩ | ⟨s'⟩ | ⟨e⟩ | _
  · exact absurd hloop (resolveLoop_cyc hfresh hcpend)
  · exact absurd hloop resolveLoop_false_no_early
  · cases e with
    | undefinedVar u =>
      exfalso
      have hGcl : ∀ x w z, Reach values name x → lookupV values x = some w →
          z ∈ w.dependencies → Reach values name z := by
        intro x w z hx hw hz
        refine hx.tail ⟨w, hw, ?_⟩
        have hwr : w.resolved = none := hfresh x w hw
        unfold Value.dependencies at hz
        rw [hwr] at hz
        exact hz
      have hstk : ∀ st ∈ [(⟨some name, v.dependencies, [none]⟩ : Step)],
          ∀ x ∈ st.varnames, Reach values name x := by
        intro st hst x hx
        rw [List.mem_singleton] at hst
        subst hst
        exact Relation.ReflTransGen.single ⟨v, hl, by rw [← hdeq]; exact hx⟩
      exact resolveLoop_G hdef hGcl hstk hloop
    | circularRef r =>
      simp only [hloop]
      exact ⟨r, values, rfl⟩
  · exact absurd hloop (resolveLoop_total hbnd hpot)

/-- C3 witness: the self-reference `a = "%\x7ba\x7d"` is rejected as
circular rather than treated as a resolved fixed point. -/
theorem circular_chain_raises_witness :
    Fresh selfStore ∧ CycReach selfStore "a" ∧
    ∃ r values', Variables.lookup selfStore "a" =
      RResult.err (VError.circularRef r) values' := by
  have hfresh : Fresh selfStore := init_fresh [("a", "%{a}")] false
  have hedge : DepEdge selfStore "a" "a" := by
    refine ⟨⟨"%{a}", none⟩, rfl, ?_⟩
    have hv : varNamesList "%{a}" = ["a"] := rfl
    rw [hv]
    exact List.mem_singleton_self "a"
  have hcyc : CycReach selfStore "a" :=
    ⟨"a", Relation.ReflTransGen.refl, Relation.TransGen.single hedge⟩
  have hone : ∀ x, Reach selfStore "a" x → x = "a" := by
    intro x h
    induction h with
    | refl => rfl
    | tail h₁ h₂ ih =>
      obtain ⟨w, hw, hm⟩ := h₂
      rw [ih] at hw
      have hw' : w = ⟨"%{a}", none⟩ := by
        have hc : lookupV selfStore "a" = some ⟨"%{a}", none⟩ := rfl
        rw [hc] at hw
        exact (Option.some.inj hw).symm
      rw [hw'] at hm
      have hv : varNamesList (Value.template ⟨"%{a}", none⟩) = ["a"] := rfl
      rw [hv] at hm
      exact List.mem_singleton.mp hm
  have hdef : ∀ x, Reach selfStore "a" x → ∃ v, lookupV selfStore x = some v := by
    intro x h
    rw [hone x h]
    exact ⟨⟨"%{a}", none⟩, rfl⟩
  exact ⟨hfresh, hcyc, circular_chain_raises selfStore "a" hfresh hdef hcyc⟩

/-- C4: parsing splits any raw template into an ordered alternation of
literal and variable parts that renders back to the original text
verbatim; every variable part's name matches
`[a-zA-Z][a-zA-Z0-9_-]*`; no literal part is empty; and no literal part
contains a match of the `%\x7bname\x7d` pattern at any position (malformed
references such as `%\x7b1bad\x7d` or `%\x7b\x7d` therefore stay inside
literal text and are never an error). -/
theorem template_parse_characterization (s : String) :
    renderParts (parseString s) = s ∧
    ∀ p ∈ parseString s,
      (∀ x, p = ValuePart.var x → goodName x) ∧
      (∀ t, p = ValuePart.literal t →
        t.data ≠ [] ∧ ∀ i, matchExpansion (t.data.drop i) = none) :=
  ⟨parseString_render s, parseString_parts s⟩

/-- C4 witness: a template mixing a well-formed reference with a malformed
one renders back to itself after parsing. -/
theorem template_parse_characterization_witness :
    renderParts (parseString "pre %{var-1} mid %\x7b2bad\x7d post") =
      "pre %{var-1} mid %\x7b2bad\x7d post" :=
  (template_parse_characterization "pre %{var-1} mid %\x7b2bad\x7d post").1

/-- C5: on every finite store and every name the resolution driver, run
with the fuel `Variables.lookup` supplies, terminates in an ordinary
outcome: it returns a string or an undefined-variable or
circular-reference error, and in particular never exhausts its fuel (the
explicit-stack loop cannot run forever) and never reaches the crash
outcome. -/
theorem resolution_terminates (values : Variables) (name : String) :
    ((∃ s values', Variables.lookup values name = RResult.ok s values') ∨
      (∃ e values', Variables.lookup values name = RResult.err e values')) ∧
    Variables.lookup values name ≠ RResult.outOfFuel ∧
    Variables.lookup values name ≠ RResult.fault := by
  rcases lookup_spec values name with ⟨e, h⟩ | ⟨s, w, h, _⟩
  · exact ⟨Or.inr ⟨e, values, h⟩, by simp [h], by simp [h]⟩
  · exact ⟨Or.inl ⟨s, w, h⟩, by simp [h], by simp [h]⟩

/-- C5 witness: resolving the self-referential store neither exhausts the
fuel nor crashes. -/
theorem resolution_terminates_witness :
    Variables.lookup selfStore "a" ≠ RResult.outOfFuel ∧
    Variables.lookup selfStore "a" ≠ RResult.fault :=
  ⟨(resolution_terminates selfStore "a").2.1, (resolution_terminates selfStore "a").2.2⟩

/-- C6: when resolution of a name fails with either error, the store the
error carries is the original store unchanged — in particular every value
that was unresolved before the call is still present and unresolved after
it, so a later retry starts clean. -/
theorem failed_resolution_leaves_memos_clean (values : Variables) (name : String)
    (e : VError) (values' : Variables)
    (h : Variables.lookup values name = RResult.err e values') :
    values' = values ∧
    ∀ k v, lookupV values k = some v → v.resolved = none → lookupV values' k = some v := by
  have he := lookup_err_elim h
  exact ⟨he, fun k v hk _ => by rw [he]; exact hk⟩

/-- C6 witness: the failing resolution of the cyclic store `p`/`q` leaves
`q` unresolved. -/
theorem failed_resolution_leaves_memos_clean_witness :
    Variables.lookup cyc2Store "p" = RResult.err (VError.circularRef (some "p")) cyc2Store ∧
    lookupV cyc2Store "q" = some ⟨"%{p}", none⟩ := by
  have h := failed_resolution_leaves_memos_clean cyc2Store "p"
    (VError.circularRef (some "p")) cyc2Store rfl
  exact ⟨rfl, h.2 "q" ⟨"%{p}", none⟩ rfl rfl⟩

/-- C7: once a value's memo is set, every public operation of the store —
lookup, get, subst, expand, check and full iteration — carries it through
unchanged to whatever store it returns, and a later resolution of the
same name returns the identical memoized string without touching the
store. -/
theorem memo_write_once (values : Variables) (k : String) (v : Value) (r : String)
    (hk : lookupV values k = some v) (hr : v.resolved = some r) :
    Variables.lookup values k = RResult.ok r values ∧
    (∀ n w, (Variables.lookup values n).outStore = some w → lookupV w k = some v) ∧
    (∀ n w, (Variables.get values n).outStore = some w → lookupV w k = some v) ∧
    (∀ t w, (Variables.subst values t).outStore = some w → lookupV w k = some v) ∧
    (∀ d w, (Variables.expand values d).outStore = some w → lookupV w k = some v) ∧
    (∀ w, (Variables.check values).outStore = some w → lookupV w k = some v) ∧
    (∀ w, (Variables.iterateAll values).outStore = some w → lookupV w k = some v) := by
  have hne : v.resolved ≠ none := by rw [hr]; simp
  exact ⟨lookup_eq_memo hk hr,
    fun n w h => lookup_frozen h k v hk hne,
    fun n w h => get_frozen h k v hk hne,
    fun t w h => subst_frozen h k v hk hne,
    fun d w h => expand_frozen values d w h k v hk hne,
    fun w h => check_frozen h k v hk hne,
    fun w h => iterate_frozen h k v hk hne⟩

/-- C7 witness: the set memo of `m` survives a resolution of `u` (which
writes `u`'s own memo) and is returned verbatim when `m` is resolved
again. -/
theorem memo_write_once_witness :
    Variables.lookup memoStore "m" = RResult.ok "hi" memoStore ∧
    (Variables.lookup memoStore "u").outStore =
      some [("m", ⟨"hi", some "hi"⟩), ("u", ⟨"%{m}!", some "hi!"⟩)] ∧
    lookupV [("m", (⟨"hi", some "hi"⟩ : Value)), ("u", ⟨"%{m}!", some "hi!"⟩)] "m" =
      some ⟨"hi", some "hi"⟩ := by
  have h := memo_write_once memoStore "m" ⟨"hi", some "hi"⟩ "hi" rfl rfl
  exact ⟨h.1, rfl, h.2.1 "u" [("m", ⟨"hi", some "hi"⟩), ("u", ⟨"%{m}!", some "hi!"⟩)] rfl⟩

/-- C8: constructing a store with the notparallel flag set forces the
variable `max-jobs` to the literal template `"1"` before any resolution,
whatever the input supplied for `max-jobs`; resolving `max-jobs` then
returns `"1"`.  The flag itself is modelled from the spec: the code reads
it via `node.get_bool("notparallel", False)`, whose source lives outside
this repository's files, so the boolean-truthiness of the input entry is
passed as the constructor's boolean argument. -/
theorem notparallel_forces_max_jobs (input : List (String × String)) :
    lookupV (Variables.init input true) "max-jobs" = some ⟨"1", none⟩ ∧
    Variables.lookup (Variables.init input true) "max-jobs" =
      RResult.ok "1" (setV (Variables.init input true) "max-jobs" ⟨"1", some "1"⟩) := by
  have h := init_max_jobs input
  exact ⟨h, lookup_literal h rfl⟩

/-- C8 witness: with `notparallel = true` and `max-jobs = "4"` supplied,
resolving `max-jobs` returns `"1"`, overriding the supplied `"4"`. -/
theorem notparallel_forces_max_jobs_witness :
    Variables.lookup (Variables.init [("notparallel", "true"), ("max-jobs", "4")] true)
        "max-jobs" =
      RResult.ok "1" (setV (Variables.init [("notparallel", "true"), ("max-jobs", "4")] true)
        "max-jobs" ⟨"1", some "1"⟩) :=
  (notparallel_forces_max_jobs [("notparallel", "true"), ("max-jobs", "4")]).2

/-- C9: over a store with sound memos, a successful in-place expansion of
a document tree rewrites exactly the scalar leaves — each leaf's text is
replaced by its substituted result under the reference semantics — while
sequence and mapping containers keep their node kind, their sibling
order and their keys (`ExpandedFrom` states precisely this shape
preservation).  The document node type is modelled from the spec: the
code walks `node.pyx` objects (`ScalarNode`, `SequenceNode`,
`MappingNode`), whose source lives outside this repository's files. -/
theorem expand_rewrites_only_scalar_leaves (values : Variables) (d d' : Node)
    (values' : Variables) (hmo : MemOK values)
    (h : Variables.expand values d = ExpandOut.ok d' values') :
    ExpandedFrom values d d' :=
  (expand_sound values values d d' values' hmo (SameT.refl values) h).1

/-- C9 witness: expanding a mapping holding a scalar and a sequence over
the `base`/`greet` store rewrites the two scalar leaves and preserves the
tree shape. -/
theorem expand_rewrites_only_scalar_leaves_witness :
    Variables.expand expandStore demoNode = ExpandOut.ok demoNodeExpanded
      [("base", ⟨"hello", some "hello"⟩), ("greet", ⟨"%{base} world", some "hello world"⟩)] ∧
    ExpandedFrom expandStore demoNode demoNodeExpanded := by
  have hmo : MemOK expandStore :=
    fresh_memOK (init_fresh [("base", "hello"), ("greet", "%{base} world")] false)
  exact ⟨rfl, expand_rewrites_only_scalar_leaves expandStore demoNode demoNodeExpanded
    [("base", ⟨"hello", some "hello"⟩), ("greet", ⟨"%{base} world", some "hello world"⟩)]
    hmo rfl⟩

/-- C10: a variable bound to a template in which the `%\x7bname\x7d`
pattern never matches — the empty string, plain text, or text holding
only malformed references — resolves to the original raw string
unchanged: resolution is the identity on placeholder-free templates. -/
theorem placeholder_free_template_resolves_to_itself (values : Variables) (n s : String)
    (hl : lookupV values n = some ⟨s, none⟩)
    (hnm : ∀ i, matchExpansion (s.data.drop i) = none) :
    Variables.lookup values n = RResult.ok s (setV values n ⟨s, some s⟩) :=
  lookup_literal hl (varNamesList_of_no_match hnm)

/-- C10 witness: a template holding only literal text and the malformed
references `%\x7b1bad\x7d` and `%\x7b\x7d` resolves to itself verbatim. -/
theorem placeholder_free_template_resolves_to_itself_witness :
    Variables.lookup c10store "lit" =
      RResult.ok "plain %\x7b1bad\x7d %\x7b\x7d text"
        (setV c10store "lit"
          ⟨"plain %\x7b1bad\x7d %\x7b\x7d text", some "plain %\x7b1bad\x7d %\x7b\x7d text"⟩) :=
  placeholder_free_template_resolves_to_itself c10store "lit"
    "plain %\x7b1bad\x7d %\x7b\x7d text" rfl (noRefB_correct rfl)

end BuildStream
